import Mathlib

namespace TestBot

/-- Environment mappings: association lists from variable names to string values. -/
abbrev EnvMap := List (String × String)

/-- First-match lookup of a key in an environment mapping (JS object property read). -/
def getVal (k : String) : EnvMap → Option String
  | [] => none
  | (k', v) :: rest => if k' = k then some v else getVal k rest

/-- Remove every binding of a key. -/
def eraseKey (k : String) : EnvMap → EnvMap
  | [] => []
  | (k', v) :: rest => if k' = k then eraseKey k rest else (k', v) :: eraseKey k rest

/-- JS object property assignment `m[k] = v`: bind `k` to `v`, dropping older bindings. -/
def setKey (m : EnvMap) (k v : String) : EnvMap := (k, v) :: eraseKey k m

/-- JS whitespace recognizer used by the `trim()` transforms in the schemas
(space, tab, line terminators, NBSP, BOM and the common Unicode terminators). -/
def isJsWs (c : Char) : Bool :=
  decide (c = ' ') || decide (c = '\t') || decide (c = '\n') || decide (c = '\r') ||
  decide (c = '\x0b') || decide (c = '\x0c') || decide (c = '\u00A0') ||
  decide (c = '\uFEFF') || decide (c = '\u2028') || decide (c = '\u2029')

/-- ASCII hexadecimal digit, as accepted by the `[0-9a-fA-F]` character class. -/
def isHexDigitChar (c : Char) : Bool :=
  (decide (48 ≤ c.toNat) && decide (c.toNat ≤ 57)) ||
  (decide (97 ≤ c.toNat) && decide (c.toNat ≤ 102)) ||
  (decide (65 ≤ c.toNat) && decide (c.toNat ≤ 70))

/-- Models `String.prototype.startsWith` on character lists (pattern first, subject second). -/
def startsWithList : List Char → List Char → Bool
  | [], _ => true
  | _ :: _, [] => false
  | a :: l₁, b :: l₂ => decide (a = b) && startsWithList l₁ l₂

/-- The regex `/^0x[0-9a-fA-F]{n}$/` on a character list: a `0x` head followed by
exactly `n` hex digits. -/
def matchesHex (n : Nat) (l : List Char) : Bool :=
  startsWithList ['0', 'x'] l && decide (l.length = n + 2) && (l.drop 2).all isHexDigitChar

/-- Models `PRIVATE_KEY` shape: `/^0x[0-9a-fA-F]{64}$/` (config.ts). -/
def matchesPrivateKey (s : String) : Bool := matchesHex 64 s.data

/-- Models `WALLET_ADDRESS` shape: `/^0x[0-9a-fA-F]{40}$/` (config.ts). -/
def matchesWalletAddress (s : String) : Bool := matchesHex 40 s.data

/-- Drop leading JS whitespace. -/
def trimLeftL (l : List Char) : List Char := l.dropWhile isJsWs

/-- Drop trailing JS whitespace. -/
def trimRightL (l : List Char) : List Char := (l.reverse.dropWhile isJsWs).reverse

/-- The `.trim()` string transform applied by every schema field (config.ts). -/
def jsTrim (s : String) : String := ⟨trimRightL (trimLeftL s.data)⟩

/-- Split a character list at its first `'='`, returning the part before and after. -/
def splitFirstEq : List Char → Option (List Char × List Char)
  | [] => none
  | c :: rest =>
    if c = '=' then some ([], rest)
    else match splitFirstEq rest with
      | some (k, v) => some (c :: k, v)
      | none => none

/-- Modelled from the spec: `CredentialStore.read` "parses `KEY=value` lines into a
mapping" and the configuration files use "the `KEY=value` line format with `#`-prefixed
comments"; the concrete parser (the `dotenv` package) is not part of this repository.
A line yields a binding when it is not a comment and has a `KEY=` head with a
non-empty key; the value is everything after the first `'='`. -/
def parseLine (line : String) : Option (String × String) :=
  if line.data.head? = some '#' then none
  else match splitFirstEq line.data with
    | some (k, v) => if k = [] then none else some (⟨k⟩, ⟨v⟩)
    | none => none

/-- Fold the parsed bindings of the lines into a mapping, later lines overriding
earlier ones (dotenv object-assignment semantics). -/
def parseLinesAux (acc : EnvMap) : List String → EnvMap
  | [] => acc
  | line :: rest =>
    match parseLine line with
    | some (k, v) => parseLinesAux (setKey acc k v) rest
    | none => parseLinesAux acc rest

/-- Parse a list of file lines into an environment mapping. -/
def parseLines (ls : List String) : EnvMap := parseLinesAux [] ls

/-- The contribution of a single line to the final value of key `k`. -/
def lastValueStep (k : String) (acc : Option String) (line : String) : Option String :=
  match parseLine line with
  | some (k', v') => if k' = k then some v' else acc
  | none => acc

def lastValueAux (k : String) (acc : Option String) : List String → Option String
  | [] => acc
  | line :: rest => lastValueAux k (lastValueStep k acc line) rest

/-- Value of the last line binding `k` in a list of lines. -/
def lastValue (k : String) (ls : List String) : Option String := lastValueAux k none ls

/-- A key a credential-file line can actually carry: non-empty, free of `'='`,
and not beginning a `#` comment. -/
def GoodKey (k : String) : Prop :=
  k.data ≠ [] ∧ '=' ∉ k.data ∧ k.data.head? ≠ some '#'

instance (k : String) : Decidable (GoodKey k) := by
  unfold GoodKey
  infer_instance

/-- Code-point comparison of character lists, the order used by JS `Array.sort()`
on the (BMP) strings occurring as environment keys. -/
def charListLe : List Char → List Char → Bool
  | [], _ => true
  | _ :: _, [] => false
  | a :: as, b :: bs =>
    if a.toNat < b.toNat then true
    else if b.toNat < a.toNat then false
    else charListLe as bs

def strLe (a b : String) : Bool := charListLe a.data b.data

def insertSorted (k : String) : List String → List String
  | [] => [k]
  | x :: xs => if strLe k x then k :: x :: xs else x :: insertSorted k xs

/-- Models `Array.prototype.sort()` on a key list (insertion sort; the sorted order of the
distinct key set is unique, so the algorithm choice is immaterial). -/
def sortStrings : List String → List String
  | [] => []
  | x :: xs => insertSorted x (sortStrings xs)

/-- Models `Object.keys(values)`: the distinct keys of the mapping, first occurrences kept. -/
def objKeys (m : EnvMap) : List String := (m.map Prod.fst).dedup

/-- Models `Object.keys(values).sort()` as iterated by `serializeEnvMap`. -/
def sortedKeys (m : EnvMap) : List String := sortStrings (objKeys m)

/-- The `KEY=value` line pushed for one sorted key, when its value is non-empty
(the body loop of `serializeEnvMap`). -/
def emitLine (values : EnvMap) (k : String) : Option String :=
  match getVal k values with
  | some v => if v.length > 0 then some (k ++ "=" ++ v) else none
  | none => none

/-- The two comment lines and blank line the serializer starts from. -/
def headerFor (now : String) : List String :=
  ["# Managed by @org/wallet. Never commit this file.", "# Updated at " ++ now, ""]

/-- The serializer's special `WALLET_ADDRESS` re-check: when the mapping holds the key
but no emitted line starts with `WALLET_ADDRESS=`, push `WALLET_ADDRESS=<value>`. -/
def addressFallback (bodyLines : List String) (wa : Option String) : List String :=
  match wa with
  | some v =>
    if bodyLines.any (fun line => startsWithList "WALLET_ADDRESS=".data line.data)
    then bodyLines
    else bodyLines ++ ["WALLET_ADDRESS=" ++ v]
  | none => bodyLines

/-- The serializer's final step: guarantee a trailing blank line. -/
def ensureTrailingBlank (lines : List String) : List String :=
  if lines.getLast? ≠ some "" then lines ++ [""] else lines

/-- Models `serializeEnvMap` (wallet source): a comment header naming the owner and a
timestamp, one sorted `KEY=value` line per non-empty value, a special re-check for
`WALLET_ADDRESS`, and a guaranteed trailing blank line. -/
def serializeEnvMap (now : String) (values : EnvMap) : List String :=
  ensureTrailingBlank
    (addressFallback (headerFor now ++ (sortedKeys values).filterMap (emitLine values))
      (getVal "WALLET_ADDRESS" values))

/-- The mapping-level meaning of one serialized key: its value when non-empty,
nothing when empty or absent. -/
def emitVal (values : EnvMap) (k : String) : Option String :=
  match getVal k values with
  | some v => if v = "" then none else some v
  | none => none

/-- First loop of `collectEnvironment` (config.ts): copy every ambient process
variable whose value is a non-empty string into the merged mapping. -/
def applyProcEntries (merged : EnvMap) : EnvMap → EnvMap
  | [] => merged
  | (k, v) :: rest =>
    applyProcEntries (if v ≠ "" then setKey merged k v else merged) rest

/-- Per-file loop of `collectEnvironment`: a parsed entry fills a key only when the
key is not already present in the merged mapping (`!(key in merged)`). -/
def applyFileEntries (merged : EnvMap) : EnvMap → EnvMap
  | [] => merged
  | (k, v) :: rest =>
    applyFileEntries (if getVal k merged = none then setKey merged k v else merged) rest

/-- The `for (const fileName of [".env.local", ".env"])` loop; `none` stands for a
file that does not exist (`existsSync` false → `continue`). -/
def collectFiles (merged : EnvMap) : List (Option EnvMap) → EnvMap
  | [] => merged
  | none :: rest => collectFiles merged rest
  | some parsed :: rest => collectFiles (applyFileEntries merged parsed) rest

/-- Models `collectEnvironment` (config.ts): merge ambient process variables with the parsed
contents of `.env.local` then `.env`, earlier sources winning per key. -/
def collectEnvironment (procEnv : EnvMap) (files : List (Option EnvMap)) : EnvMap :=
  collectFiles (applyProcEntries [] procEnv) files

/-- Option fallback used to state the precedence characterization. -/
def orVal : Option String → Option String → Option String
  | some v, _ => some v
  | none, b => b

/-- The ambient-variable contribution to a key: its value when non-empty. -/
def procVal (procEnv : EnvMap) (k : String) : Option String :=
  match getVal k procEnv with
  | some v => if v = "" then none else some v
  | none => none

/-- The file contribution to a key: its parsed value, empty or not, when the file
exists and defines the key. -/
def fileVal : Option EnvMap → String → Option String
  | some parsed, k => getVal k parsed
  | none, _ => none

/-- One zod validation issue: the offending field and its message. -/
structure Issue where
  path : String
  message : String
deriving DecidableEq

/-- Models `SEPOLIA_RPC_URL` check (config.ts): `.trim().url().refine(http/https scheme)`.
`isUrl` stands for zod's `.url()` predicate, external library code injected as a
parameter. -/
def sepoliaIssue (isUrl : String → Bool) (env : EnvMap) : Option Issue :=
  match getVal "SEPOLIA_RPC_URL" env with
  | none => none
  | some raw =>
    if isUrl (jsTrim raw) then
      if startsWithList "http://".data (jsTrim raw).data ||
          startsWithList "https://".data (jsTrim raw).data then none
      else some ⟨"SEPOLIA_RPC_URL",
        "SEPOLIA_RPC_URL must begin with an http:// or https:// scheme."⟩
    else some ⟨"SEPOLIA_RPC_URL", "SEPOLIA_RPC_URL must be a valid URL."⟩

/-- Models `PRIVATE_KEY` check (config.ts): `.trim().regex(/^0x[0-9a-fA-F]{64}$/)`. -/
def privateKeyIssue (env : EnvMap) : Option Issue :=
  match getVal "PRIVATE_KEY" env with
  | none => none
  | some raw =>
    if matchesPrivateKey (jsTrim raw) then none
    else some ⟨"PRIVATE_KEY",
      "PRIVATE_KEY must be a 32-byte hex string prefixed with 0x (64 hex chars)."⟩

/-- Models `WALLET_ADDRESS` check (config.ts): `.trim().regex(/^0x[0-9a-fA-F]{40}$/)`. -/
def walletAddressIssue (env : EnvMap) : Option Issue :=
  match getVal "WALLET_ADDRESS" env with
  | none => none
  | some raw =>
    if matchesWalletAddress (jsTrim raw) then none
    else some ⟨"WALLET_ADDRESS",
      "WALLET_ADDRESS must be a 20-byte hex string prefixed with 0x."⟩

/-- Models `ETHERSCAN_API_KEY` check (config.ts): `.trim().min(1)`. -/
def etherscanIssue (env : EnvMap) : Option Issue :=
  match getVal "ETHERSCAN_API_KEY" env with
  | none => none
  | some raw =>
    if (jsTrim raw).length ≥ 1 then none
    else some ⟨"ETHERSCAN_API_KEY", "ETHERSCAN_API_KEY cannot be empty when provided."⟩

/-- All issues of `BaseEnvironmentSchema.parse`: every declared field is checked and
every offending field reported; unknown keys pass through unchecked. -/
def baseIssues (isUrl : String → Bool) (env : EnvMap) : List Issue :=
  (sepoliaIssue isUrl env).toList ++ (privateKeyIssue env).toList ++
    (walletAddressIssue env).toList ++ (etherscanIssue env).toList

/-- The four fields declared by `BaseEnvironmentSchema`. -/
def knownKeys : List String :=
  ["SEPOLIA_RPC_URL", "PRIVATE_KEY", "WALLET_ADDRESS", "ETHERSCAN_API_KEY"]

/-- Output mapping of a successful base parse: declared fields come out trimmed
(zod's `.trim()` transform), passthrough keys are untouched. -/
def trimKnown (env : EnvMap) : EnvMap :=
  env.map (fun p => if p.1 ∈ knownKeys then (p.1, jsTrim p.2) else p)

/-- Models `BaseEnvironmentSchema.parse`: the parsed (trimmed) mapping when no field has an
invalid shape, failure otherwise. -/
def parseBaseEnvironment (isUrl : String → Bool) (env : EnvMap) : Option EnvMap :=
  if baseIssues isUrl env = [] then some (trimKnown env) else none

/-- The `requiredKeys` array of `StrictEnvironmentSchema.superRefine`. -/
def requiredKeys : List String :=
  ["SEPOLIA_RPC_URL", "PRIVATE_KEY", "WALLET_ADDRESS", "ETHERSCAN_API_KEY"]

/-- The remediation message the strict refinement attaches to a missing field. -/
def requiredMessage (k : String) : String :=
  k ++ " is required. Populate it in .env.local or regenerate via the wallet helper."

/-- Models `!environment[key]` on the parsed output: the key is absent or its value empty. -/
def missingKey (parsed : EnvMap) (k : String) : Bool :=
  match getVal k parsed with
  | none => true
  | some v => decide (v = "")

/-- The issues added by the strict refinement: one per missing required field. -/
def missingIssues (parsed : EnvMap) : List Issue :=
  requiredKeys.filterMap
    (fun k => if missingKey parsed k then some ⟨k, requiredMessage k⟩ else none)

/-- All issues of `StrictEnvironmentSchema.parse`: shape issues if any (the
refinement is skipped when the base parse fails), otherwise the missing-field
issues over the parsed output. -/
def strictIssues (isUrl : String → Bool) (env : EnvMap) : List Issue :=
  if baseIssues isUrl env = [] then missingIssues (trimKnown env)
  else baseIssues isUrl env

/-- Models `StrictEnvironmentSchema.parse`. -/
def parseStrictEnvironment (isUrl : String → Bool) (env : EnvMap) : Option EnvMap :=
  if strictIssues isUrl env = [] then some (trimKnown env) else none

/-- Ambient state a wallet invocation sees: the process variables, the two
configuration files (as lines, `none` for a missing file), the credential-file
mode bits, and the process umask. -/
structure World where
  procEnv : EnvMap
  envLocalFile : Option (List String)
  envLocalMode : Option Nat
  envFile : Option (List String)
  umask : Nat
deriving DecidableEq

/-- The merged configuration `collectEnvironment(cwd)` computes in a world. -/
def resolvedConfig (w : World) : EnvMap :=
  collectEnvironment w.procEnv [w.envLocalFile.map parseLines, w.envFile.map parseLines]

/-- Models `loadEnvironment` (config.ts) = `loadEnv` (wallet package): collect the merged
environment for the working directory and parse it with the permissive schema. -/
def loadEnvironment (isUrl : String → Bool) (w : World) : Option EnvMap :=
  parseBaseEnvironment isUrl (resolvedConfig w)

/-- Models `readEnvLocal` (wallet source): empty mapping when the file does not exist. -/
def readEnvLocal (w : World) : EnvMap :=
  match w.envLocalFile with
  | none => []
  | some contents => parseLines contents

/-- Modelled from the spec: `writeFileSync` with a `mode` option applies the mode
(masked by the process umask) only when the call creates the file; an existing file
keeps its mode bits. The node `fs` functions are external to the repository. -/
def writeFileSyncEnvLocal (contents : List String) (mode : Nat) (w : World) : World :=
  { w with
    envLocalFile := some contents
    envLocalMode := some (match w.envLocalMode with
      | some m => m
      | none => Nat.ldiff mode w.umask) }

/-- Modelled from the spec: `chmodSync` sets the file mode unconditionally,
independent of the umask. -/
def chmodSyncEnvLocal (mode : Nat) (w : World) : World :=
  { w with envLocalMode := some mode }

/-- Models `writeEnvLocal` (wallet source): serialize, write with mode `0o600`, then
`chmodSync(path, 0o600)`, and report `true`. -/
def writeEnvLocal (now : String) (values : EnvMap) (w : World) : Bool × World :=
  (true, chmodSyncEnvLocal 0o600
    (writeFileSyncEnvLocal (serializeEnvMap now values) 0o600 w))

/-- Models `WalletMaterialized` (wallet source). -/
structure WalletMaterialized where
  address : String
  privateKey : String
  created : Bool
  rotated : Bool
  wroteEnv : Bool
deriving DecidableEq

/-- Models `rotateWallet` (wallet source): generate a fresh pair (`newKey` is the value the
external `generatePrivateKey` returned; `deriveAddr` is `privateKeyToAccount`'s
address derivation) and overwrite both fields. -/
def rotateWallet (deriveAddr : String → String) (newKey now : String)
    (envLocal : EnvMap) (w : World) : WalletMaterialized × World :=
  let privateKey := newKey
  let address := deriveAddr privateKey
  let written := writeEnvLocal now
    (setKey (setKey envLocal "PRIVATE_KEY" privateKey) "WALLET_ADDRESS" address) w
  (⟨address, privateKey, true, true, written.1⟩, written.2)

/-- Models `provisionWallet` (wallet source): generate and persist a pair when no secrets
are configured. -/
def provisionWallet (deriveAddr : String → String) (newKey now : String)
    (envLocal : EnvMap) (w : World) : WalletMaterialized × World :=
  let privateKey := newKey
  let address := deriveAddr privateKey
  let written := writeEnvLocal now
    (setKey (setKey envLocal "PRIVATE_KEY" privateKey) "WALLET_ADDRESS" address) w
  (⟨address, privateKey, true, false, written.1⟩, written.2)

/-- JS truthiness of an optional string: present and non-empty. -/
def truthy : Option String → Bool
  | some v => decide (v ≠ "")
  | none => false

/-- Models `options.environment ?? loadEnv({ cwd })`. -/
def resolveEnvironment (isUrl : String → Bool) (env? : Option EnvMap) (w : World) :
    Option EnvMap :=
  match env? with
  | some e => some e
  | none => loadEnvironment isUrl w

/-- Models `ensureWallet` (wallet source). A `none` result models the underlying
`loadEnv` throwing a validation error before the wallet logic runs. -/
def ensureWallet (isUrl : String → Bool) (deriveAddr : String → String)
    (newKey now : String) (force : Bool) (env? : Option EnvMap) (w : World) :
    Option (WalletMaterialized × World) :=
  match resolveEnvironment isUrl env? w with
  | none => none
  | some environment =>
    let envLocal := readEnvLocal w
    if force then some (rotateWallet deriveAddr newKey now envLocal w)
    else
      let pk := getVal "PRIVATE_KEY" environment
      let addr := getVal "WALLET_ADDRESS" environment
      if truthy pk && truthy addr then
        some (⟨addr.getD "", pk.getD "", false, false, false⟩, w)
      else if truthy pk && !truthy addr then
        let derived := deriveAddr (pk.getD "")
        let written := writeEnvLocal now
          (setKey (setKey envLocal "PRIVATE_KEY" (pk.getD "")) "WALLET_ADDRESS" derived) w
        some (⟨derived, pk.getD "", false, false, written.1⟩, written.2)
      else some (provisionWallet deriveAddr newKey now envLocal w)

/-- The four decision paths of the lifecycle state machine (spec §4.3). -/
inductive WalletPath
  | reuse
  | repair
  | provision
  | rotate
deriving DecidableEq

/-- The path `ensureWallet` takes, as a function of the intent flag and the
truthiness of the resolved secrets. -/
def walletPath (force pk addr : Bool) : WalletPath :=
  if force then .rotate
  else if pk && addr then .reuse
  else if pk then .repair
  else .provision

/-- A valid private key literal (0x + 64 hex digits), used by concrete witnesses. -/
def pkLit : String := "0x1111111111111111111111111111111111111111111111111111111111111111"

/-- A valid wallet address literal (0x + 40 hex digits). -/
def adLit : String := "0xaaaaaaaaaaaaaaaaaaaaaaaaaaaaaaaaaaaaaaaa"

/-- A second valid wallet address literal. -/
def adLit2 : String := "0xbbbbbbbbbbbbbbbbbbbbbbbbbbbbbbbbbbbbbbbb"

/-- A trivially accepting URL predicate, standing in for zod's `.url()` in witnesses. -/
def urlT : String → Bool := fun _ => true

/-- An address-derivation oracle that always returns `adLit2`. -/
def dA2 : String → String := fun _ => adLit2

/-- A world with no configuration files, no ambient variables and umask `0`. -/
def w0 : World := ⟨[], none, none, none, 0⟩

/-- Placeholder wallet record for `Option.getD`. -/
def wmDflt : WalletMaterialized := ⟨"", "", false, false, false⟩

/-- A fully-populated valid environment used by the strict-schema witnesses. -/
def envFull : EnvMap :=
  [("SEPOLIA_RPC_URL", "https://sepolia.example.org"), ("PRIVATE_KEY", pkLit),
    ("WALLET_ADDRESS", adLit), ("ETHERSCAN_API_KEY", "key123")]

/-- The concrete provision run used by the C2 witness. -/
def c2run : Option (WalletMaterialized × World) :=
  ensureWallet urlT dA2 pkLit "t" false (some []) w0

def c2r : WalletMaterialized := (c2run.map Prod.fst).getD wmDflt

def c2w : World := (c2run.map Prod.snd).getD w0

/-- Mapping with a non-empty, an empty and an address field, for the C4 witness. -/
def c4vals : EnvMap := [("FOO", "bar"), ("EMPTY", ""), ("WALLET_ADDRESS", adLit)]

/-- The concrete repair run used by the C1 witness: a credential file holding only a
private key. -/
def c1w : World := ⟨[], some ["PRIVATE_KEY=" ++ pkLit], some 384, none, 0⟩

def c1run : Option (WalletMaterialized × World) :=
  ensureWallet urlT dA2 pkLit "t" false none c1w

def c1r : WalletMaterialized := (c1run.map Prod.fst).getD wmDflt

def c1w' : World := (c1run.map Prod.snd).getD c1w

/-- World for the C10 witness: prior file with an extra non-empty key. -/
def c10w : World := ⟨[], some ["BAR=keep", "PRIVATE_KEY=" ++ pkLit], some 384, none, 0⟩

def c10run : Option (WalletMaterialized × World) :=
  ensureWallet urlT dA2 pkLit "t" false none c10w

def c10w' : World := (c10run.map Prod.snd).getD c10w

def c10r : WalletMaterialized := (c10run.map Prod.fst).getD wmDflt

/-- Environment with an ill-shaped private key, for the C7 witness. -/
def envBadPk : EnvMap := [("PRIVATE_KEY", "0xzz")]

/-- The two concrete runs used by the C9 witness. -/
def c9run1 : Option (WalletMaterialized × World) :=
  ensureWallet urlT dA2 pkLit "t" false none w0

def c9r1 : WalletMaterialized := (c9run1.map Prod.fst).getD wmDflt

def c9w1 : World := (c9run1.map Prod.snd).getD w0

def c9run2 : Option (WalletMaterialized × World) :=
  ensureWallet urlT dA2 pkLit "t2" false none c9w1

def c9r2 : WalletMaterialized := (c9run2.map Prod.fst).getD wmDflt

def c9w2 : World := (c9run2.map Prod.snd).getD w0

theorem getVal_setKey_self (m : EnvMap) (k v : String) : getVal k (setKey m k v) = some v := by
  simp [setKey, getVal]

theorem getVal_eraseKey (m : EnvMap) (k k' : String) (h : k' ≠ k) :
    getVal k' (eraseKey k m) = getVal k' m := by
  induction m with
  | nil => rfl
  | cons p rest ih =>
    obtain ⟨k₀, v₀⟩ := p
    by_cases h₀ : k₀ = k
    · subst h₀
      simp [eraseKey, getVal, ih, Ne.symm h]
    · by_cases h₁ : k₀ = k'
      · subst h₁
        simp [eraseKey, getVal, h₀]
      · simp [eraseKey, getVal, h₀, h₁, ih]

theorem getVal_setKey_ne (m : EnvMap) (k v k' : String) (h : k' ≠ k) :
    getVal k' (setKey m k v) = getVal k' m := by
  simp [setKey, getVal, Ne.symm h, getVal_eraseKey m k k' h]

theorem mem_eraseKey {m : EnvMap} {k : String} {p : String × String}
    (h : p ∈ eraseKey k m) : p ∈ m := by
  induction m with
  | nil => exact absurd h (by simp [eraseKey])
  | cons q rest ih =>
    obtain ⟨k₀, v₀⟩ := q
    by_cases h₀ : k₀ = k
    · rw [eraseKey, if_pos h₀] at h
      exact List.mem_cons_of_mem _ (ih h)
    · rw [eraseKey, if_neg h₀] at h
      rcases List.mem_cons.mp h with h1 | h1
      · exact h1 ▸ List.mem_cons_self _ _
      · exact List.mem_cons_of_mem _ (ih h1)

theorem mem_setKey {m : EnvMap} {k v : String} {p : String × String}
    (h : p ∈ setKey m k v) : p = (k, v) ∨ p ∈ m := by
  rcases List.mem_cons.mp h with h | h
  · exact Or.inl h
  · exact Or.inr (mem_eraseKey h)

theorem getVal_eq_none_of_not_mem {m : EnvMap} {k : String}
    (h : k ∉ m.map Prod.fst) : getVal k m = none := by
  induction m with
  | nil => rfl
  | cons p rest ih =>
    obtain ⟨k₀, v₀⟩ := p
    simp only [List.map_cons, List.mem_cons] at h
    push_neg at h
    have h₀ : ¬ k₀ = k := fun hh => h.1 hh.symm
    simp [getVal, h₀, ih h.2]

theorem getVal_setKey (m : EnvMap) (k' v k : String) :
    getVal k (setKey m k' v) = if k' = k then some v else getVal k m := by
  by_cases h : k' = k
  · subst h
    simp [getVal_setKey_self]
  · rw [if_neg h, getVal_setKey_ne m k' v k (fun hh => h hh.symm)]

theorem getVal_parseLinesAux (k : String) (ls : List String) :
    ∀ acc : EnvMap, getVal k (parseLinesAux acc ls) = lastValueAux k (getVal k acc) ls := by
  induction ls with
  | nil => intro acc; rfl
  | cons line rest ih =>
    intro acc
    rw [parseLinesAux, lastValueAux]
    cases hline : parseLine line with
    | none => simp [lastValueStep, hline, ih]
    | some kv =>
      obtain ⟨k', v'⟩ := kv
      simp only [lastValueStep, hline, ih, getVal_setKey]

theorem getVal_parseLines (k : String) (ls : List String) :
    getVal k (parseLines ls) = lastValue k ls := by
  rw [parseLines, lastValue, getVal_parseLinesAux]
  rfl

theorem lastValueAux_acc (k : String) (ls : List String) :
    ∀ acc : Option String, lastValueAux k acc ls =
      match lastValue k ls with
      | some v => some v
      | none => acc := by
  induction ls with
  | nil => intro acc; rfl
  | cons line rest ih =>
    intro acc
    rw [lastValue, lastValueAux, lastValueAux, ih (lastValueStep k acc line),
        ih (lastValueStep k none line)]
    cases lastValue k rest with
    | some v => rfl
    | none =>
      simp only [lastValueStep]
      cases parseLine line with
      | none => rfl
      | some kv =>
        obtain ⟨k', v'⟩ := kv
        by_cases h : k' = k <;> simp [h]

theorem lastValueAux_append (k : String) (xs ys : List String) :
    ∀ acc, lastValueAux k acc (xs ++ ys) = lastValueAux k (lastValueAux k acc xs) ys := by
  induction xs with
  | nil => intro acc; rfl
  | cons line rest ih => intro acc; rw [List.cons_append, lastValueAux, lastValueAux, ih]

theorem lastValue_append (k : String) (xs ys : List String) :
    lastValue k (xs ++ ys) =
      match lastValue k ys with
      | some v => some v
      | none => lastValue k xs := by
  rw [lastValue, lastValueAux_append, lastValueAux_acc]
  cases lastValue k ys <;> rfl

theorem strApp_data (s t : String) : (s ++ t).data = s.data ++ t.data := rfl

theorem keyval_data (k v : String) : (k ++ "=" ++ v).data = k.data ++ '=' :: v.data := by
  rw [strApp_data, strApp_data, List.append_assoc]
  rfl

theorem splitFirstEq_append {K : List Char} (h : '=' ∉ K) (V : List Char) :
    splitFirstEq (K ++ '=' :: V) = some (K, V) := by
  induction K with
  | nil => rfl
  | cons c rest ih =>
    have hc : c ≠ '=' := fun hh => h (hh ▸ List.mem_cons_self _ _)
    have hrest : '=' ∉ rest := fun hh => h (List.mem_cons_of_mem _ hh)
    rw [List.cons_append, splitFirstEq, if_neg hc, ih hrest]

theorem splitFirstEq_some {l kl vl : List Char} (h : splitFirstEq l = some (kl, vl)) :
    '=' ∉ kl ∧ l = kl ++ '=' :: vl := by
  induction l generalizing kl vl with
  | nil => exact absurd h (by simp [splitFirstEq])
  | cons c rest ih =>
    rw [splitFirstEq] at h
    by_cases hc : c = '='
    · rw [if_pos hc] at h
      obtain ⟨h1, h2⟩ := Prod.mk.injEq .. ▸ Option.some.injEq .. ▸ h
      subst hc
      constructor
      · exact h1 ▸ List.not_mem_nil '='
      · rw [← h1, ← h2]; rfl
    · rw [if_neg hc] at h
      cases hrec : splitFirstEq rest with
      | none => rw [hrec] at h; exact absurd h (by simp)
      | some kv =>
        obtain ⟨k', v'⟩ := kv
        rw [hrec] at h
        have hkl : kl = c :: k' ∧ vl = v' := by
          have := Option.some.injEq .. ▸ h
          exact ⟨(Prod.mk.injEq .. ▸ this).1.symm, (Prod.mk.injEq .. ▸ this).2.symm⟩
        obtain ⟨ih1, ih2⟩ := ih hrec
        obtain ⟨hk, hv⟩ := hkl
        subst hk; subst hv
        constructor
        · intro hmem
          rcases List.mem_cons.mp hmem with hh | hh
          · exact hc hh.symm
          · exact ih1 hh
        · rw [List.cons_append, ← ih2]

theorem parseLine_keyval {k : String} (hk : GoodKey k) (v : String) :
    parseLine (k ++ "=" ++ v) = some (k, v) := by
  obtain ⟨hne, hnoeq, hhash⟩ := hk
  have hsplit : splitFirstEq ((k ++ "=" ++ v).data) = some (k.data, v.data) := by
    rw [keyval_data]
    exact splitFirstEq_append hnoeq v.data
  have hhead : ¬ ((k ++ "=" ++ v).data.head? = some '#') := by
    rw [keyval_data]
    cases hcd : k.data with
    | nil => exact absurd hcd hne
    | cons c tail =>
      rw [List.cons_append]
      intro hh
      apply hhash
      rw [hcd]
      simpa using hh
  rw [parseLine, if_neg hhead]
  simp only [hsplit]
  rw [if_neg hne]

theorem parseLine_comment {line : String} (h : line.data.head? = some '#') :
    parseLine line = none := by
  rw [parseLine, if_pos h]

theorem parseLine_goodKey {line : String} {k v : String}
    (h : parseLine line = some (k, v)) : GoodKey k := by
  rw [parseLine] at h
  by_cases hc : line.data.head? = some '#'
  · rw [if_pos hc] at h
    exact absurd h (by simp)
  · rw [if_neg hc] at h
    cases hsplit : splitFirstEq line.data with
    | none => rw [hsplit] at h; exact absurd h (by simp)
    | some kv =>
      obtain ⟨kl, vl⟩ := kv
      simp only [hsplit] at h
      by_cases hkl : kl = []
      · rw [if_pos hkl] at h; exact absurd h (by simp)
      · rw [if_neg hkl] at h
        have hkeq : (⟨kl⟩ : String) = k := by
          have := Option.some.injEq .. ▸ h
          exact (Prod.mk.injEq .. ▸ this).1
        obtain ⟨hmem, hshape⟩ := splitFirstEq_some hsplit
        have hdata : k.data = kl := by rw [← hkeq]
        have hhead : line.data.head? = kl.head? := by
          rw [hshape]
          cases kl with
          | nil => exact absurd rfl hkl
          | cons c₀ t₀ => rfl
        refine ⟨?_, ?_, ?_⟩
        · rw [hdata]; exact hkl
        · rw [hdata]; exact hmem
        · rw [hdata, ← hhead]; exact hc

theorem goodKey_parseLinesAux {ls : List String} :
    ∀ acc : EnvMap, (∀ p ∈ acc, GoodKey p.1) →
      ∀ p ∈ parseLinesAux acc ls, GoodKey p.1 := by
  induction ls with
  | nil => intro acc hacc p hp; exact hacc p hp
  | cons line rest ih =>
    intro acc hacc p hp
    rw [parseLinesAux] at hp
    cases hline : parseLine line with
    | none => rw [hline] at hp; exact ih acc hacc p hp
    | some kv =>
      obtain ⟨k, v⟩ := kv
      rw [hline] at hp
      refine ih (setKey acc k v) ?_ p hp
      intro q hq
      rcases mem_setKey hq with hq | hq
      · rw [hq]; exact parseLine_goodKey hline
      · exact hacc q hq

theorem goodKey_parseLines {ls : List String} :
    ∀ p ∈ parseLines ls, GoodKey p.1 :=
  goodKey_parseLinesAux [] (fun p hp => absurd hp (List.not_mem_nil p))

theorem mem_insertSorted {a k : String} {l : List String} :
    a ∈ insertSorted k l ↔ a = k ∨ a ∈ l := by
  induction l with
  | nil => simp [insertSorted]
  | cons x xs ih =>
    by_cases h : strLe k x
    · simp [insertSorted, h]
    · simp only [insertSorted, if_neg h, List.mem_cons, ih]
      tauto

theorem mem_sortStrings {a : String} {l : List String} :
    a ∈ sortStrings l ↔ a ∈ l := by
  induction l with
  | nil => simp [sortStrings]
  | cons x xs ih =>
    simp only [sortStrings, mem_insertSorted, List.mem_cons, ih]

theorem nodup_insertSorted {k : String} {l : List String}
    (hk : k ∉ l) (hl : l.Nodup) : (insertSorted k l).Nodup := by
  induction l with
  | nil => simp [insertSorted]
  | cons x xs ih =>
    rw [List.mem_cons] at hk
    push_neg at hk
    rw [List.nodup_cons] at hl
    by_cases h : strLe k x
    · rw [insertSorted, if_pos h]
      exact List.nodup_cons.mpr ⟨by
        rw [List.mem_cons]
        push_neg
        exact hk, List.nodup_cons.mpr hl⟩
    · rw [insertSorted, if_neg h]
      refine List.nodup_cons.mpr ⟨?_, ih hk.2 hl.2⟩
      rw [mem_insertSorted]
      push_neg
      exact ⟨fun hh => hk.1 hh.symm, hl.1⟩

theorem nodup_sortStrings {l : List String} (hl : l.Nodup) : (sortStrings l).Nodup := by
  induction l with
  | nil => simp [sortStrings]
  | cons x xs ih =>
    rw [List.nodup_cons] at hl
    rw [sortStrings]
    exact nodup_insertSorted (fun hh => hl.1 (mem_sortStrings.mp hh)) (ih hl.2)

theorem nodup_sortedKeys (m : EnvMap) : (sortedKeys m).Nodup :=
  nodup_sortStrings (List.nodup_dedup _)

theorem mem_sortedKeys {m : EnvMap} {k : String} :
    k ∈ sortedKeys m ↔ k ∈ m.map Prod.fst := by
  rw [sortedKeys, mem_sortStrings, objKeys, List.mem_dedup]

theorem getVal_isSome_iff_mem {m : EnvMap} {k : String} :
    (∃ v, getVal k m = some v) ↔ k ∈ m.map Prod.fst := by
  induction m with
  | nil => simp [getVal]
  | cons p rest ih =>
    obtain ⟨k₀, v₀⟩ := p
    by_cases h : k₀ = k
    · subst h
      simp [getVal]
    · simp only [getVal, if_neg h, List.map_cons, List.mem_cons, ih]
      constructor
      · intro hh; exact Or.inr hh
      · rintro (hh | hh)
        · exact absurd hh.symm h
        · exact hh

theorem strLength_pos_iff (v : String) : v.length > 0 ↔ v ≠ "" := by
  show 0 < v.data.length ↔ v ≠ ""
  rw [List.length_pos]
  constructor
  · intro h hv
    exact h (by rw [hv])
  · intro h hd
    apply h
    apply String.ext
    rw [hd]

theorem emitVal_eq_none_of_emitLine {values : EnvMap} {k : String}
    (h : emitLine values k = none) : emitVal values k = none := by
  cases hgv : getVal k values with
  | none => simp [emitVal, hgv]
  | some v =>
    simp only [emitLine, hgv] at h
    by_cases hvp : v.length > 0
    · rw [if_pos hvp] at h
      exact absurd h (by simp)
    · have hv : v = "" := by
        by_contra hne
        exact hvp ((strLength_pos_iff v).mpr hne)
      simp [emitVal, hgv, hv]

theorem emitLine_elim {values : EnvMap} {k : String} {l : String}
    (h : emitLine values k = some l) :
    ∃ v, getVal k values = some v ∧ v ≠ "" ∧ l = k ++ "=" ++ v := by
  cases hgv : getVal k values with
  | none => simp [emitLine, hgv] at h
  | some v =>
    simp only [emitLine, hgv] at h
    by_cases hvp : v.length > 0
    · rw [if_pos hvp] at h
      exact ⟨v, rfl, (strLength_pos_iff v).mp hvp, (Option.some.injEq .. ▸ h).symm⟩
    · rw [if_neg hvp] at h
      exact absurd h (by simp)

theorem lastValue_cons (k : String) (l : String) (ls : List String) :
    lastValue k (l :: ls) =
      match lastValue k ls with
      | some v => some v
      | none => lastValueStep k none l := by
  rw [lastValue, lastValueAux, lastValueAux_acc]

theorem lastValue_filterMap_emit (values : EnvMap) (k : String) :
    ∀ keys : List String, (∀ k' ∈ keys, GoodKey k') →
      lastValue k (keys.filterMap (emitLine values)) =
        if k ∈ keys then emitVal values k else none := by
  intro keys
  induction keys with
  | nil => intro _; simp [lastValue, lastValueAux]
  | cons k₁ rest ih =>
    intro hGood
    have hGood₁ : GoodKey k₁ := hGood k₁ (List.mem_cons_self _ _)
    have hGoodRest : ∀ k' ∈ rest, GoodKey k' := fun k' h => hGood k' (List.mem_cons_of_mem _ h)
    rw [List.filterMap_cons]
    cases hemit : emitLine values k₁ with
    | none =>
      rw [ih hGoodRest]
      by_cases heq : k = k₁
      · subst heq
        have hnone : emitVal values k = none := emitVal_eq_none_of_emitLine hemit
        simp [hnone]
      · simp only [List.mem_cons, heq, false_or]
    | some l =>
      obtain ⟨v₁, hv₁, hv₁ne, hl⟩ := emitLine_elim hemit
      have hparse : parseLine l = some (k₁, v₁) := by
        rw [hl]
        exact parseLine_keyval hGood₁ v₁
      rw [lastValue_cons, ih hGoodRest]
      have hstep : lastValueStep k none l = if k₁ = k then some v₁ else none := by
        rw [lastValueStep, hparse]
      by_cases hmem : k ∈ rest
      · rw [if_pos hmem]
        cases hEV : emitVal values k with
        | some u => simp [List.mem_cons, hmem, hEV]
        | none =>
          have heq : ¬ (k₁ = k) := by
            intro hh
            subst hh
            simp only [emitVal, hv₁, if_neg hv₁ne] at hEV
            exact Option.noConfusion hEV
          rw [hstep, if_neg heq]
          simp [List.mem_cons, hmem, hEV]
      · rw [if_neg hmem, hstep]
        by_cases heq : k₁ = k
        · subst heq
          have hEV : emitVal values k₁ = some v₁ := by
            simp only [emitVal, hv₁, if_neg hv₁ne]
          simp [List.mem_cons, hEV]
        · have : ¬ (k = k₁) := fun hh => heq hh.symm
          simp [List.mem_cons, this, hmem, heq]

theorem emitVal_eq_none_of_not_mem {values : EnvMap} {k : String}
    (h : k ∉ sortedKeys values) : emitVal values k = none := by
  rw [emitVal, getVal_eq_none_of_not_mem (fun hh => h (mem_sortedKeys.mpr hh))]

theorem parseLine_updated (now : String) : parseLine ("# Updated at " ++ now) = none := by
  apply parseLine_comment
  rw [strApp_data]
  rfl

/-- The constant header of a serialized credential file contributes no binding. -/
theorem lastValue_header (k now : String) :
    lastValueAux k none (headerFor now) = none := by
  rw [headerFor]
  have h₁ : parseLine "# Managed by @org/wallet. Never commit this file." = none :=
    parseLine_comment rfl
  have h₂ : parseLine ("# Updated at " ++ now) = none := parseLine_updated now
  have h₃ : parseLine "" = none := rfl
  simp [lastValueAux, lastValueStep, h₁, h₂, h₃]

theorem lastValue_body (now : String) (values : EnvMap) (k : String)
    (hvals : ∀ k' ∈ sortedKeys values, GoodKey k') :
    lastValue k (headerFor now ++ (sortedKeys values).filterMap (emitLine values)) =
      emitVal values k := by
  rw [lastValue_append, lastValue_filterMap_emit values k (sortedKeys values) hvals]
  by_cases hmem : k ∈ sortedKeys values
  · rw [if_pos hmem]
    cases hEV : emitVal values k with
    | some u => rfl
    | none => exact lastValue_header k now
  · rw [if_neg hmem]
    rw [show lastValue k (headerFor now) = none from lastValue_header k now]
    rw [emitVal_eq_none_of_not_mem hmem]

theorem startsWithList_append_self (p t : List Char) : startsWithList p (p ++ t) = true := by
  induction p with
  | nil => rfl
  | cons a as ih => simp [startsWithList, ih]

theorem startsWithList_key {K₁ K₂ T₁ T₂ : List Char}
    (h₁ : '=' ∉ K₁) (h₂ : '=' ∉ K₂)
    (h : startsWithList (K₁ ++ '=' :: T₁) (K₂ ++ '=' :: T₂) = true) : K₁ = K₂ := by
  induction K₁ generalizing K₂ with
  | nil =>
    cases K₂ with
    | nil => rfl
    | cons b bs =>
      rw [List.nil_append, List.cons_append, startsWithList] at h
      have hb : '=' = b := of_decide_eq_true ((Bool.and_eq_true ..).mp h).1
      exact absurd (by rw [hb]; exact List.mem_cons_self b bs) h₂
  | cons a as ih =>
    cases K₂ with
    | nil =>
      rw [List.cons_append, List.nil_append, startsWithList] at h
      have ha : a = '=' := of_decide_eq_true ((Bool.and_eq_true ..).mp h).1
      exact absurd (by rw [← ha]; exact List.mem_cons_self a as) h₁
    | cons b bs =>
      rw [List.cons_append, List.cons_append, startsWithList] at h
      obtain ⟨hab, hrest⟩ := (Bool.and_eq_true ..).mp h
      have hab' : a = b := of_decide_eq_true hab
      have ih' := ih (fun hh => h₁ (List.mem_cons_of_mem _ hh))
        (fun hh => h₂ (List.mem_cons_of_mem _ hh)) hrest
      rw [hab', ih']

theorem waPat_split : "WALLET_ADDRESS=".data = "WALLET_ADDRESS".data ++ '=' :: [] := rfl

theorem not_startsWith_headOne :
    startsWithList "WALLET_ADDRESS=".data
      "# Managed by @org/wallet. Never commit this file.".data = false := rfl

theorem not_startsWith_updated (now : String) :
    startsWithList "WALLET_ADDRESS=".data ("# Updated at " ++ now).data = false := by
  rw [strApp_data]
  rfl

theorem not_startsWith_empty :
    startsWithList "WALLET_ADDRESS=".data ("" : String).data = false := rfl

theorem any_header_false (now : String) :
    ((headerFor now).any (fun line => startsWithList "WALLET_ADDRESS=".data line.data)) =
      false := by
  rw [headerFor]
  simp only [List.any_cons, List.any_nil]
  rw [not_startsWith_headOne, not_startsWith_updated, not_startsWith_empty]
  rfl

/-- If some serialized header-or-body line starts with `WALLET_ADDRESS=`, the mapping
holds a non-empty `WALLET_ADDRESS` value. -/
theorem any_startsWith_wa {now : String} {values : EnvMap}
    (hGood : ∀ k' ∈ sortedKeys values, GoodKey k')
    (h : (headerFor now ++ (sortedKeys values).filterMap (emitLine values)).any
        (fun line => startsWithList "WALLET_ADDRESS=".data line.data) = true) :
    ∃ v, getVal "WALLET_ADDRESS" values = some v ∧ v ≠ "" := by
  rw [List.any_append, any_header_false, Bool.false_or] at h
  obtain ⟨line, hline, hsw⟩ := List.any_eq_true.mp h
  obtain ⟨k', hk'mem, hk'emit⟩ := List.mem_filterMap.mp hline
  obtain ⟨v', hv', hv'ne, hl⟩ := emitLine_elim hk'emit
  have hgk : GoodKey k' := hGood k' hk'mem
  have hkeq : "WALLET_ADDRESS" = k' := by
    have hdata : line.data = k'.data ++ '=' :: v'.data := by rw [hl, keyval_data]
    rw [hdata, waPat_split] at hsw
    have : "WALLET_ADDRESS".data = k'.data :=
      startsWithList_key (by decide) hgk.2.1 hsw
    exact String.ext this
  exact ⟨v', hkeq ▸ hv', hv'ne⟩

theorem waline_eq (v : String) : "WALLET_ADDRESS=" ++ v = "WALLET_ADDRESS" ++ "=" ++ v := by
  apply String.ext
  rw [strApp_data, strApp_data, strApp_data, List.append_assoc]
  rfl

theorem goodKey_wa : GoodKey "WALLET_ADDRESS" := by decide

theorem lastValue_waline (k v : String) :
    lastValue k ["WALLET_ADDRESS=" ++ v] = if "WALLET_ADDRESS" = k then some v else none := by
  have hparse : parseLine ("WALLET_ADDRESS=" ++ v) = some ("WALLET_ADDRESS", v) := by
    rw [waline_eq]
    exact parseLine_keyval goodKey_wa v
  show lastValueAux k (lastValueStep k none ("WALLET_ADDRESS=" ++ v)) [] =
    if "WALLET_ADDRESS" = k then some v else none
  rw [lastValueAux, lastValueStep, hparse]

theorem lastValue_ensureTrailingBlank (k : String) (X : List String) :
    lastValue k (ensureTrailingBlank X) = lastValue k X := by
  rw [ensureTrailingBlank]
  by_cases h : X.getLast? ≠ some ""
  · rw [if_pos h, lastValue_append]
    rw [show lastValue k [""] = none from rfl]
  · rw [if_neg h]

/-- Round trip through the credential store: reading back a serialized mapping gives,
for every wellformed key, its non-empty value — except `WALLET_ADDRESS`, whose binding
(empty or not) always survives because of the serializer's special re-check. -/
theorem getVal_parse_serialize (now : String) (values : EnvMap) (k : String)
    (hvals : ∀ k' ∈ sortedKeys values, GoodKey k') (hk : GoodKey k) :
    getVal k (parseLines (serializeEnvMap now values)) =
      if k = "WALLET_ADDRESS" then getVal "WALLET_ADDRESS" values else emitVal values k := by
  cases hWA : getVal "WALLET_ADDRESS" values with
  | none =>
    rw [getVal_parseLines, serializeEnvMap, hWA, lastValue_ensureTrailingBlank]
    simp only [addressFallback]
    rw [lastValue_body now values k hvals]
    by_cases hkwa : k = "WALLET_ADDRESS"
    · subst hkwa
      rw [if_pos rfl]
      simp only [emitVal, hWA]
    · rw [if_neg hkwa]
  | some v =>
    rw [getVal_parseLines, serializeEnvMap, hWA, lastValue_ensureTrailingBlank]
    simp only [addressFallback]
    by_cases hany : ((headerFor now ++
        (sortedKeys values).filterMap (emitLine values)).any
        (fun line => startsWithList "WALLET_ADDRESS=".data line.data)) = true
    · rw [if_pos hany, lastValue_body now values k hvals]
      by_cases hkwa : k = "WALLET_ADDRESS"
      · subst hkwa
        rw [if_pos rfl]
        obtain ⟨v', hv', hv'ne⟩ := any_startsWith_wa hvals hany
        rw [hWA] at hv'
        have hveq : v = v' := Option.some.injEq .. ▸ hv'
        have hvne : v ≠ "" := by rw [hveq]; exact hv'ne
        simp only [emitVal, hWA, if_neg hvne]
      · rw [if_neg hkwa]
    · rw [if_neg hany, lastValue_append, lastValue_waline]
      by_cases hkwa : k = "WALLET_ADDRESS"
      · subst hkwa
        rw [if_pos rfl, if_pos rfl]
      · rw [if_neg (fun hh : "WALLET_ADDRESS" = k => hkwa hh.symm), if_neg hkwa,
          lastValue_body now values k hvals]

theorem getVal_applyProcEntries (k : String) :
    ∀ (l : EnvMap), (l.map Prod.fst).Nodup → ∀ m₀ : EnvMap,
      getVal k (applyProcEntries m₀ l) =
        match getVal k l with
        | some v => if v = "" then getVal k m₀ else some v
        | none => getVal k m₀ := by
  intro l
  induction l with
  | nil => intro _ m₀; rfl
  | cons p rest ih =>
    obtain ⟨k₁, v₁⟩ := p
    intro hnd m₀
    rw [List.map_cons, List.nodup_cons] at hnd
    rw [applyProcEntries, ih hnd.2]
    by_cases hk : k₁ = k
    · subst hk
      have hrest : getVal k₁ rest = none := getVal_eq_none_of_not_mem hnd.1
      have hcons : getVal k₁ ((k₁, v₁) :: rest) = some v₁ := by simp [getVal]
      simp only [hrest, hcons]
      by_cases hv : v₁ = ""
      · rw [if_pos hv, if_neg (fun hh : v₁ ≠ "" => hh hv)]
      · rw [if_neg hv, if_pos (hv : v₁ ≠ ""), getVal_setKey_self]
    · have hcons : getVal k ((k₁, v₁) :: rest) = getVal k rest := by simp [getVal, hk]
      have hm : getVal k (if v₁ ≠ "" then setKey m₀ k₁ v₁ else m₀) = getVal k m₀ := by
        by_cases hv : v₁ ≠ ""
        · rw [if_pos hv, getVal_setKey_ne m₀ k₁ v₁ k (fun hh => hk hh.symm)]
        · rw [if_neg hv]
      rw [hcons, hm]

theorem getVal_applyFileEntries (k : String) :
    ∀ (l : EnvMap) (m : EnvMap),
      getVal k (applyFileEntries m l) =
        match getVal k m with
        | some v => some v
        | none => getVal k l := by
  intro l
  induction l with
  | nil =>
    intro m
    cases h : getVal k m <;> simp only [applyFileEntries, h, getVal]
  | cons p rest ih =>
    obtain ⟨k₁, v₁⟩ := p
    intro m
    rw [applyFileEntries, ih]
    by_cases hmem : getVal k₁ m = none
    · rw [if_pos hmem]
      by_cases hk : k₁ = k
      · subst hk
        rw [hmem, getVal_setKey_self]
        simp [getVal]
      · rw [getVal_setKey_ne m k₁ v₁ k (fun hh => hk hh.symm)]
        cases getVal k m with
        | some v => rfl
        | none => simp [getVal, hk]
    · rw [if_neg hmem]
      by_cases hk : k₁ = k
      · subst hk
        cases hm : getVal k₁ m with
        | some v => rfl
        | none => exact absurd hm hmem
      · cases getVal k m with
        | some v => rfl
        | none => simp [getVal, hk]

/-- Characterization of `collectEnvironment` over the two-file list the source uses:
ambient non-empty values win, then `.env.local`, then `.env` — with file-provided
values participating whether or not they are empty. -/
theorem getVal_collectEnvironment (procEnv : EnvMap) (hnd : (procEnv.map Prod.fst).Nodup)
    (localFile envFile : Option EnvMap) (k : String) :
    getVal k (collectEnvironment procEnv [localFile, envFile]) =
      orVal (procVal procEnv k) (orVal (fileVal localFile k) (fileVal envFile k)) := by
  have hproc : getVal k (applyProcEntries [] procEnv) = procVal procEnv k := by
    rw [getVal_applyProcEntries k procEnv hnd []]
    simp only [procVal]
    cases getVal k procEnv with
    | some v => by_cases hv : v = "" <;> simp [hv, getVal]
    | none => rfl
  rw [collectEnvironment]
  cases localFile with
  | none =>
    cases envFile with
    | none =>
      show getVal k (applyProcEntries [] procEnv) = _
      rw [hproc]
      simp only [fileVal]
      cases procVal procEnv k <;> rfl
    | some envParsed =>
      show getVal k (applyFileEntries (applyProcEntries [] procEnv) envParsed) = _
      rw [getVal_applyFileEntries, hproc]
      simp only [fileVal]
      cases procVal procEnv k <;> rfl
  | some localParsed =>
    cases envFile with
    | none =>
      show getVal k (applyFileEntries (applyProcEntries [] procEnv) localParsed) = _
      rw [getVal_applyFileEntries, hproc]
      simp only [fileVal]
      cases procVal procEnv k with
      | some v => rfl
      | none => cases getVal k localParsed <;> rfl
    | some envParsed =>
      show getVal k
        (applyFileEntries (applyFileEntries (applyProcEntries [] procEnv) localParsed)
          envParsed) = _
      rw [getVal_applyFileEntries, getVal_applyFileEntries, hproc]
      simp only [fileVal]
      cases procVal procEnv k with
      | some v => rfl
      | none => cases getVal k localParsed <;> rfl

theorem startsWithList_elim : ∀ {p l : List Char}, startsWithList p l = true →
    ∃ t, l = p ++ t := by
  intro p
  induction p with
  | nil => intro l _; exact ⟨l, rfl⟩
  | cons a as ih =>
    intro l h
    cases l with
    | nil => exact absurd h (by simp [startsWithList])
    | cons b bs =>
      rw [startsWithList, Bool.and_eq_true] at h
      obtain ⟨t, ht⟩ := ih h.2
      refine ⟨t, ?_⟩
      rw [List.cons_append, ht, of_decide_eq_true h.1]

theorem matchesHex_elim {n : Nat} {l : List Char} (h : matchesHex n l = true) :
    ∃ rest, l = '0' :: 'x' :: rest ∧ rest.length = n ∧ rest.all isHexDigitChar = true := by
  rw [matchesHex, Bool.and_eq_true, Bool.and_eq_true] at h
  obtain ⟨⟨hsw, hlen⟩, hall⟩ := h
  obtain ⟨t, ht⟩ := startsWithList_elim hsw
  subst ht
  refine ⟨t, rfl, ?_, ?_⟩
  · have hl := of_decide_eq_true hlen
    simp only [List.length_append, List.length_cons, List.length_nil] at hl
    omega
  · exact hall

theorem hex_not_ws {c : Char} (h : isHexDigitChar c = true) : isJsWs c = false := by
  by_contra hws
  have hws' : isJsWs c = true := by
    cases hB : isJsWs c
    · exact absurd hB hws
    · rfl
  rw [isJsWs] at hws'
  simp only [Bool.or_eq_true, decide_eq_true_eq] at hws'
  rcases hws' with ((((((((h1 | h1) | h1) | h1) | h1) | h1) | h1) | h1) | h1) | h1 <;>
    (rw [h1] at h; exact absurd h (by decide))

theorem ne_empty_of_matchesHex {n : Nat} {s : String} (h : matchesHex n s.data = true) :
    s ≠ "" := by
  obtain ⟨rest, hd, _, _⟩ := matchesHex_elim h
  intro he
  rw [he] at hd
  exact absurd hd (by simp)

theorem jsTrim_eq_of_matchesHex {n : Nat} {s : String} (hn : 0 < n)
    (h : matchesHex n s.data = true) : jsTrim s = s := by
  obtain ⟨rest, hd, hlen, hall⟩ := matchesHex_elim h
  have hrest_ne : rest ≠ [] := by
    intro hh
    rw [hh] at hlen
    simp at hlen
    omega
  have hleft : trimLeftL s.data = s.data := by
    rw [hd, trimLeftL, List.dropWhile_cons]
    rw [show isJsWs '0' = false from rfl]
    simp
  have hright : trimRightL s.data = s.data := by
    rw [trimRightL]
    have hrev : s.data.reverse = rest.reverse ++ ['x', '0'] := by
      rw [hd]
      simp
    cases hrr : rest.reverse with
    | nil => exact absurd (List.reverse_eq_nil_iff.mp hrr) hrest_ne
    | cons c t =>
      have hc_mem : c ∈ rest := by
        have : c ∈ rest.reverse := by
          rw [hrr]
          exact List.mem_cons_self _ _
        exact List.mem_reverse.mp this
      have hc_hex : isHexDigitChar c = true := by
        rw [List.all_eq_true] at hall
        exact hall c hc_mem
      have hc_ws : isJsWs c = false := hex_not_ws hc_hex
      rw [hrev, hrr, List.cons_append, List.dropWhile_cons, hc_ws]
      simp only [Bool.false_eq_true, if_false]
      rw [← List.cons_append, ← hrr, ← hrev, List.reverse_reverse]
  rw [jsTrim, hleft, hright]

theorem jsTrim_eq_of_privateKey {s : String} (h : matchesPrivateKey s = true) :
    jsTrim s = s :=
  jsTrim_eq_of_matchesHex (by omega) h

theorem jsTrim_eq_of_walletAddress {s : String} (h : matchesWalletAddress s = true) :
    jsTrim s = s :=
  jsTrim_eq_of_matchesHex (by omega) h

theorem truthy_some_of_ne {v : String} (h : v ≠ "") : truthy (some v) = true := by
  simp [truthy, h]

theorem truthy_some_elim {v : String} (h : truthy (some v) = true) : v ≠ "" := by
  simp [truthy] at h
  exact h

theorem parseBase_elim {isUrl : String → Bool} {env e : EnvMap}
    (h : parseBaseEnvironment isUrl env = some e) :
    baseIssues isUrl env = [] ∧ e = trimKnown env := by
  rw [parseBaseEnvironment] at h
  by_cases hb : baseIssues isUrl env = []
  · rw [if_pos hb] at h
    exact ⟨hb, ((Option.some.injEq .. ▸ h)).symm⟩
  · rw [if_neg hb] at h
    exact absurd h (by simp)

theorem optToList_nil {α : Type} {o : Option α} (h : o.toList = []) : o = none := by
  cases o with
  | none => rfl
  | some v => exact absurd h (by simp)

theorem baseIssues_nil_elim {isUrl : String → Bool} {env : EnvMap}
    (h : baseIssues isUrl env = []) :
    sepoliaIssue isUrl env = none ∧ privateKeyIssue env = none ∧
      walletAddressIssue env = none ∧ etherscanIssue env = none := by
  rw [baseIssues, List.append_eq_nil, List.append_eq_nil, List.append_eq_nil] at h
  exact ⟨optToList_nil h.1.1.1, optToList_nil h.1.1.2, optToList_nil h.1.2,
    optToList_nil h.2⟩

theorem privateKey_valid_of_none {env : EnvMap} {raw : String}
    (hpk : privateKeyIssue env = none) (hv : getVal "PRIVATE_KEY" env = some raw) :
    matchesPrivateKey (jsTrim raw) = true := by
  simp only [privateKeyIssue, hv] at hpk
  by_cases hm : matchesPrivateKey (jsTrim raw) = true
  · exact hm
  · rw [if_neg hm] at hpk
    exact absurd hpk (by simp)

theorem walletAddress_valid_of_none {env : EnvMap} {raw : String}
    (hwa : walletAddressIssue env = none) (hv : getVal "WALLET_ADDRESS" env = some raw) :
    matchesWalletAddress (jsTrim raw) = true := by
  simp only [walletAddressIssue, hv] at hwa
  by_cases hm : matchesWalletAddress (jsTrim raw) = true
  · exact hm
  · rw [if_neg hm] at hwa
    exact absurd hwa (by simp)

theorem getVal_trimKnown (env : EnvMap) (k : String) :
    getVal k (trimKnown env) =
      if k ∈ knownKeys then (getVal k env).map jsTrim else getVal k env := by
  induction env with
  | nil => by_cases hk : k ∈ knownKeys <;> simp [trimKnown, getVal, hk]
  | cons p rest ih =>
    obtain ⟨k₀, v₀⟩ := p
    rw [trimKnown, List.map_cons]
    by_cases h₀ : k₀ ∈ knownKeys
    · rw [show (if (k₀, v₀).1 ∈ knownKeys then ((k₀, v₀).1, jsTrim (k₀, v₀).2)
        else (k₀, v₀)) = (k₀, jsTrim v₀) by rw [if_pos h₀]]
      by_cases hk : k₀ = k
      · subst hk
        rw [if_pos h₀]
        simp [getVal]
      · simp only [getVal, if_neg hk]
        exact ih
    · rw [show (if (k₀, v₀).1 ∈ knownKeys then ((k₀, v₀).1, jsTrim (k₀, v₀).2)
        else (k₀, v₀)) = (k₀, v₀) by rw [if_neg h₀]]
      by_cases hk : k₀ = k
      · subst hk
        rw [if_neg h₀]
        simp [getVal]
      · simp only [getVal, if_neg hk]
        exact ih

theorem goodKeys_sorted {values : EnvMap} (h : ∀ p ∈ values, GoodKey p.1) :
    ∀ k' ∈ sortedKeys values, GoodKey k' := by
  intro k' hk'
  obtain ⟨p, hp, hfst⟩ := List.mem_map.mp (mem_sortedKeys.mp hk')
  exact hfst ▸ h p hp

theorem goodKeys_setKey {m : EnvMap} {k v : String} (hm : ∀ p ∈ m, GoodKey p.1)
    (hk : GoodKey k) : ∀ p ∈ setKey m k v, GoodKey p.1 := by
  intro p hp
  rcases mem_setKey hp with hp | hp
  · rw [hp]
    exact hk
  · exact hm p hp

/-- C5: after every credential-store write — whatever the prior mode bits, whether the
file existed, and whatever the process umask — the file mode is exactly `0o600`:
owner read/write, group bits zero, other bits zero. -/
theorem C5_write_mode_owner_only (now : String) (values : EnvMap) (w : World) :
    (writeEnvLocal now values w).2.envLocalMode = some 0o600 ∧
      0o600 / 64 % 8 = 6 ∧ 0o600 / 8 % 8 = 0 ∧ 0o600 % 8 = 0 :=
  ⟨rfl, by decide, by decide, by decide⟩

/-- C6: whenever the strict schema accepts an input (with any URL predicate), the
permissive base schema accepts it as well, with the same parsed output. -/
theorem C6_strict_accepts_implies_base (isUrl : String → Bool) (env e : EnvMap)
    (h : parseStrictEnvironment isUrl env = some e) :
    parseBaseEnvironment isUrl env = some e := by
  rw [parseStrictEnvironment] at h
  by_cases hs : strictIssues isUrl env = []
  · rw [if_pos hs] at h
    by_cases hb : baseIssues isUrl env = []
    · rw [parseBaseEnvironment, if_pos hb]
      exact h
    · rw [strictIssues, if_neg hb] at hs
      exact absurd hs hb
  · rw [if_neg hs] at h
    exact absurd h (by simp)

theorem C6_witness :
    parseStrictEnvironment urlT envFull = some (trimKnown envFull) ∧
      parseBaseEnvironment urlT envFull = some (trimKnown envFull) :=
  ⟨by decide, C6_strict_accepts_implies_base urlT envFull (trimKnown envFull) (by decide)⟩

/-- C2: for every completed `ensureWallet` call, `created` holds exactly on the
Provision and Rotate paths, `rotated` exactly on Rotate, `wroteEnv` exactly off the
Reuse path; `rotated` implies `created`, and Reuse leaves the world untouched. -/
theorem C2_flags_match_path (isUrl : String → Bool) (deriveAddr : String → String)
    (newKey now : String) (force : Bool) (env? : Option EnvMap) (w w' : World)
    (env : EnvMap) (r : WalletMaterialized)
    (hres : resolveEnvironment isUrl env? w = some env)
    (hrun : ensureWallet isUrl deriveAddr newKey now force env? w = some (r, w')) :
    (r.created = true ↔
      (walletPath force (truthy (getVal "PRIVATE_KEY" env))
          (truthy (getVal "WALLET_ADDRESS" env)) = WalletPath.provision ∨
        walletPath force (truthy (getVal "PRIVATE_KEY" env))
          (truthy (getVal "WALLET_ADDRESS" env)) = WalletPath.rotate)) ∧
    (r.rotated = true ↔
      walletPath force (truthy (getVal "PRIVATE_KEY" env))
        (truthy (getVal "WALLET_ADDRESS" env)) = WalletPath.rotate) ∧
    (r.wroteEnv = true ↔
      walletPath force (truthy (getVal "PRIVATE_KEY" env))
        (truthy (getVal "WALLET_ADDRESS" env)) ≠ WalletPath.reuse) ∧
    (r.rotated = true → r.created = true) ∧
    (walletPath force (truthy (getVal "PRIVATE_KEY" env))
        (truthy (getVal "WALLET_ADDRESS" env)) = WalletPath.reuse → w' = w) := by
  simp only [ensureWallet, hres] at hrun
  cases force with
  | true =>
    rw [if_pos rfl] at hrun
    simp only [rotateWallet, writeEnvLocal] at hrun
    rw [Option.some.injEq, Prod.mk.injEq] at hrun
    obtain ⟨hr, hw⟩ := hrun
    subst hr
    simp [walletPath]
  | false =>
    rw [if_neg (by simp)] at hrun
    cases hpk : truthy (getVal "PRIVATE_KEY" env) with
    | true =>
      cases haddr : truthy (getVal "WALLET_ADDRESS" env) with
      | true =>
        rw [hpk, haddr] at hrun
        rw [if_pos (by simp)] at hrun
        rw [Option.some.injEq, Prod.mk.injEq] at hrun
        obtain ⟨hr, hw⟩ := hrun
        subst hr
        subst hw
        simp [walletPath]
      | false =>
        rw [hpk, haddr] at hrun
        rw [if_neg (by simp), if_pos (by simp)] at hrun
        simp only [writeEnvLocal] at hrun
        rw [Option.some.injEq, Prod.mk.injEq] at hrun
        obtain ⟨hr, hw⟩ := hrun
        subst hr
        simp [walletPath]
    | false =>
      rw [hpk] at hrun
      rw [if_neg (by simp), if_neg (by simp)] at hrun
      simp only [provisionWallet, writeEnvLocal] at hrun
      rw [Option.some.injEq, Prod.mk.injEq] at hrun
      obtain ⟨hr, hw⟩ := hrun
      subst hr
      cases haddr : truthy (getVal "WALLET_ADDRESS" env) <;> simp [walletPath]

theorem C2_witness :
    (c2r.created = true ↔
      (walletPath false (truthy (getVal "PRIVATE_KEY" ([] : EnvMap)))
          (truthy (getVal "WALLET_ADDRESS" ([] : EnvMap))) = WalletPath.provision ∨
        walletPath false (truthy (getVal "PRIVATE_KEY" ([] : EnvMap)))
          (truthy (getVal "WALLET_ADDRESS" ([] : EnvMap))) = WalletPath.rotate)) ∧
    (c2r.rotated = true ↔
      walletPath false (truthy (getVal "PRIVATE_KEY" ([] : EnvMap)))
        (truthy (getVal "WALLET_ADDRESS" ([] : EnvMap))) = WalletPath.rotate) ∧
    (c2r.wroteEnv = true ↔
      walletPath false (truthy (getVal "PRIVATE_KEY" ([] : EnvMap)))
        (truthy (getVal "WALLET_ADDRESS" ([] : EnvMap))) ≠ WalletPath.reuse) ∧
    (c2r.rotated = true → c2r.created = true) ∧
    (walletPath false (truthy (getVal "PRIVATE_KEY" ([] : EnvMap)))
        (truthy (getVal "WALLET_ADDRESS" ([] : EnvMap))) = WalletPath.reuse → c2w = w0) :=
  C2_flags_match_path urlT dA2 pkLit "t" false (some []) w0 c2w [] c2r rfl (by decide)

/-- C3 counterexample: `.env.local` defining `K` with an *empty* value blocks `.env`'s
non-empty `K=x`; the resolved mapping holds `""`, not the `"x"` the claim predicts. -/
theorem C3_counterexample :
    getVal "K" (collectEnvironment []
        [some (parseLines ["K="]), some (parseLines ["K=x"])]) = some "" ∧
      ("" : String) ≠ "x" :=
  ⟨by decide, by decide⟩

/-- C3 (amended): resolution is per-key whole-value shadowing, but only the ambient
process source filters empty values; a file source provides a key whenever it defines
it — even with an empty value — and then blocks lower-precedence files. -/
theorem C3_precedence_amended (procEnv : EnvMap) (hnd : (procEnv.map Prod.fst).Nodup)
    (localFile envFile : Option EnvMap) (k : String) :
    getVal k (collectEnvironment procEnv [localFile, envFile]) =
      orVal (procVal procEnv k) (orVal (fileVal localFile k) (fileVal envFile k)) :=
  getVal_collectEnvironment procEnv hnd localFile envFile k

theorem C3_witness :
    getVal "B" (collectEnvironment [("A", "1"), ("B", "")]
        [some [("B", "")], some [("B", "3")]]) =
      orVal (procVal [("A", "1"), ("B", "")] "B")
        (orVal (fileVal (some [("B", "")]) "B") (fileVal (some [("B", "3")]) "B")) :=
  C3_precedence_amended [("A", "1"), ("B", "")] (by decide)
    (some [("B", "")]) (some [("B", "3")]) "B"

theorem eqfree_append_inj {K₁ K₂ V₁ V₂ : List Char} (h₁ : '=' ∉ K₁) (h₂ : '=' ∉ K₂)
    (h : K₁ ++ '=' :: V₁ = K₂ ++ '=' :: V₂) : K₁ = K₂ ∧ V₁ = V₂ := by
  induction K₁ generalizing K₂ with
  | nil =>
    cases K₂ with
    | nil =>
      rw [List.nil_append, List.nil_append] at h
      exact ⟨rfl, (List.cons.injEq .. ▸ h).2⟩
    | cons b bs =>
      rw [List.nil_append, List.cons_append] at h
      have hb : '=' = b := (List.cons.injEq .. ▸ h).1
      exact absurd (by rw [hb]; exact List.mem_cons_self b bs) h₂
  | cons a as ih =>
    cases K₂ with
    | nil =>
      rw [List.cons_append, List.nil_append] at h
      have ha : a = '=' := (List.cons.injEq .. ▸ h).1
      exact absurd (by rw [← ha]; exact List.mem_cons_self a as) h₁
    | cons b bs =>
      rw [List.cons_append, List.cons_append] at h
      have hab : a = b := (List.cons.injEq .. ▸ h).1
      have htail := (List.cons.injEq .. ▸ h).2
      obtain ⟨hk, hv⟩ := ih (fun hh => h₁ (List.mem_cons_of_mem _ hh))
        (fun hh => h₂ (List.mem_cons_of_mem _ hh)) htail
      exact ⟨by rw [hab, hk], hv⟩

theorem keyval_inj {k₁ k₂ v₁ v₂ : String} (h₁ : '=' ∉ k₁.data) (h₂ : '=' ∉ k₂.data)
    (h : k₁ ++ "=" ++ v₁ = k₂ ++ "=" ++ v₂) : k₁ = k₂ ∧ v₁ = v₂ := by
  have hd := congrArg String.data h
  rw [keyval_data, keyval_data] at hd
  obtain ⟨hk, hv⟩ := eqfree_append_inj h₁ h₂ hd
  exact ⟨String.ext hk, String.ext hv⟩

/-- Decomposition of membership in a serialized file: a line is a header line, the
trailing blank, an emitted `KEY=value` line with a non-empty value, or the special
`WALLET_ADDRESS=` fallback line. -/
theorem mem_serialize_elim {now : String} {values : EnvMap} {line : String}
    (h : line ∈ serializeEnvMap now values) :
    line ∈ headerFor now ∨ line = "" ∨
      (∃ k' v', getVal k' values = some v' ∧ v' ≠ "" ∧ line = k' ++ "=" ++ v') ∨
      (∃ v, getVal "WALLET_ADDRESS" values = some v ∧ line = "WALLET_ADDRESS=" ++ v) := by
  rw [serializeEnvMap, ensureTrailingBlank] at h
  have hbody : ∀ lines, line ∈ (headerFor now ++ lines) →
      (∀ l ∈ lines, ∃ k' v', getVal k' values = some v' ∧ v' ≠ "" ∧ l = k' ++ "=" ++ v') →
      line ∈ headerFor now ∨ line = "" ∨
        (∃ k' v', getVal k' values = some v' ∧ v' ≠ "" ∧ line = k' ++ "=" ++ v') ∨
        (∃ v, getVal "WALLET_ADDRESS" values = some v ∧ line = "WALLET_ADDRESS=" ++ v) := by
    intro lines hmem hall
    rcases List.mem_append.mp hmem with hmem | hmem
    · exact Or.inl hmem
    · exact Or.inr (Or.inr (Or.inl (hall line hmem)))
  have hemit : ∀ l ∈ (sortedKeys values).filterMap (emitLine values),
      ∃ k' v', getVal k' values = some v' ∧ v' ≠ "" ∧ l = k' ++ "=" ++ v' := by
    intro l hl
    obtain ⟨k', _, hk'⟩ := List.mem_filterMap.mp hl
    obtain ⟨v', hv', hv'ne, heq⟩ := emitLine_elim hk'
    exact ⟨k', v', hv', hv'ne, heq⟩
  have haf : ∀ wa : Option String, line ∈ addressFallback
      (headerFor now ++ (sortedKeys values).filterMap (emitLine values)) wa →
      line ∈ (headerFor now ++ (sortedKeys values).filterMap (emitLine values)) ∨
        (∃ v, wa = some v ∧ line = "WALLET_ADDRESS=" ++ v) := by
    intro wa hmem
    cases wa with
    | none =>
      rw [addressFallback] at hmem
      exact Or.inl hmem
    | some v =>
      simp only [addressFallback] at hmem
      by_cases hany : ((headerFor now ++
          (sortedKeys values).filterMap (emitLine values)).any
          (fun l => startsWithList "WALLET_ADDRESS=".data l.data)) = true
      · rw [if_pos hany] at hmem
        exact Or.inl hmem
      · rw [if_neg hany] at hmem
        rcases List.mem_append.mp hmem with hmem | hmem
        · exact Or.inl hmem
        · exact Or.inr ⟨v, rfl, List.mem_singleton.mp hmem⟩
  have hstep : line ∈ addressFallback
      (headerFor now ++ (sortedKeys values).filterMap (emitLine values))
      (getVal "WALLET_ADDRESS" values) →
      line ∈ headerFor now ∨ line = "" ∨
        (∃ k' v', getVal k' values = some v' ∧ v' ≠ "" ∧ line = k' ++ "=" ++ v') ∨
        (∃ v, getVal "WALLET_ADDRESS" values = some v ∧ line = "WALLET_ADDRESS=" ++ v) := by
    intro hmem
    rcases haf _ hmem with hmem | ⟨v, hv, hline⟩
    · exact hbody _ hmem hemit
    · exact Or.inr (Or.inr (Or.inr ⟨v, hv, hline⟩))
  by_cases hlast : (addressFallback
      (headerFor now ++ (sortedKeys values).filterMap (emitLine values))
      (getVal "WALLET_ADDRESS" values)).getLast? ≠ some ""
  · rw [if_pos hlast] at h
    rcases List.mem_append.mp h with h | h
    · exact hstep h
    · exact Or.inr (Or.inl (List.mem_singleton.mp h))
  · rw [if_neg hlast] at h
    exact hstep h

theorem strApp_empty (s : String) : s ++ "" = s := by
  apply String.ext
  rw [strApp_data]
  exact List.append_nil _

/-- The bare-line string is the key-value form with an empty value. -/
theorem waBare_eq : ("WALLET_ADDRESS=" : String) = "WALLET_ADDRESS" ++ "=" ++ "" := by decide

/-- Models `getVal` hits an actual entry of the mapping. -/
theorem mem_of_getVal {m : EnvMap} {k v : String} (h : getVal k m = some v) :
    (k, v) ∈ m := by
  induction m with
  | nil => exact absurd h (by simp [getVal])
  | cons p rest ih =>
    obtain ⟨k₀, v₀⟩ := p
    by_cases hk : k₀ = k
    · subst hk
      rw [getVal, if_pos rfl] at h
      have : v₀ = v := Option.some.injEq .. ▸ h
      rw [this]
      exact List.mem_cons_self _ _
    · rw [getVal, if_neg hk] at h
      exact List.mem_cons_of_mem _ (ih h)

theorem mem_ensureTrailingBlank_of {line : String} {X : List String} (h : line ∈ X) :
    line ∈ ensureTrailingBlank X := by
  rw [ensureTrailingBlank]
  by_cases hc : X.getLast? ≠ some ""
  · rw [if_pos hc]
    exact List.mem_append.mpr (Or.inl h)
  · rw [if_neg hc]
    exact h

/-- A key-value line is never one of the header lines or the blank line. -/
theorem keyval_not_header {k v now : String} (hk : GoodKey k) :
    (k ++ "=" ++ v) ∉ headerFor now ∧ k ++ "=" ++ v ≠ "" := by
  constructor
  · intro hh
    rw [headerFor] at hh
    simp only [List.mem_cons, List.mem_singleton, List.not_mem_nil, or_false] at hh
    rcases hh with hh | hh | hh
    · have hmem : '=' ∈ (k ++ "=" ++ v).data := by
        rw [keyval_data]
        exact List.mem_append.mpr (Or.inr (List.mem_cons_self _ _))
      rw [hh] at hmem
      exact absurd hmem (by decide)
    · have hd := congrArg String.data hh
      rw [keyval_data, strApp_data] at hd
      have hhd := congrArg List.head? hd
      cases hcd : k.data with
      | nil => exact hk.1 hcd
      | cons c tail =>
        rw [hcd] at hhd
        have hc : c = '#' := by simpa using hhd
        apply hk.2.2
        rw [hcd, hc]
        rfl
    · have hd := congrArg String.data hh
      rw [keyval_data] at hd
      cases hcd : k.data with
      | nil => exact hk.1 hcd
      | cons c tail =>
        rw [hcd] at hd
        exact absurd hd (by simp)
  · intro hh
    have hd := congrArg String.data hh
    rw [keyval_data] at hd
    cases hcd : k.data with
    | nil => exact hk.1 hcd
    | cons c tail =>
      rw [hcd] at hd
      exact absurd hd (by simp)

/-- C4 (amended): a serialized file binds every wellformed key other than
`WALLET_ADDRESS` exactly to its non-empty value (empty and absent values are
dropped) and never as a bare `KEY=` line; `WALLET_ADDRESS` alone keeps even an
empty binding, emitted as a bare `WALLET_ADDRESS=` line exactly when the mapping
holds `WALLET_ADDRESS` as the empty string. -/
theorem C4_serialize_drops_empty (now : String) (values : EnvMap)
    (hvals : ∀ p ∈ values, GoodKey p.1) :
    (∀ k, GoodKey k → k ≠ "WALLET_ADDRESS" →
      getVal k (parseLines (serializeEnvMap now values)) = emitVal values k) ∧
    (∀ k, GoodKey k → k ≠ "WALLET_ADDRESS" → (k ++ "=") ∉ serializeEnvMap now values) ∧
    (getVal "WALLET_ADDRESS" (parseLines (serializeEnvMap now values)) =
      getVal "WALLET_ADDRESS" values) ∧
    (("WALLET_ADDRESS=" : String) ∈ serializeEnvMap now values ↔
      getVal "WALLET_ADDRESS" values = some "") := by
  have hsorted := goodKeys_sorted hvals
  refine ⟨?_, ?_, ?_, ?_⟩
  · intro k hk hkwa
    rw [getVal_parse_serialize now values k hsorted hk, if_neg hkwa]
  · intro k hk hkwa hmem
    have hbare : k ++ "=" = k ++ "=" ++ "" := (strApp_empty (k ++ "=")).symm
    have hknh := @keyval_not_header k "" now hk
    rcases mem_serialize_elim hmem with hh | hh | hh | hh
    · exact hknh.1 (hbare ▸ hh)
    · exact hknh.2 (hbare ▸ hh)
    · obtain ⟨k', v', hv', hv'ne, heq⟩ := hh
      have hgk' : GoodKey k' := hvals (k', v') (mem_of_getVal hv')
      rw [hbare] at heq
      obtain ⟨_, hveq⟩ := keyval_inj hk.2.1 hgk'.2.1 heq
      exact hv'ne hveq.symm
    · obtain ⟨v, _, heq⟩ := hh
      rw [hbare, waline_eq] at heq
      obtain ⟨hkeq, _⟩ := keyval_inj hk.2.1 (by decide) heq
      exact hkwa hkeq
  · rw [getVal_parse_serialize now values "WALLET_ADDRESS" hsorted goodKey_wa, if_pos rfl]
  · constructor
    · intro hmem
      have hknh := @keyval_not_header "WALLET_ADDRESS" "" now goodKey_wa
      rcases mem_serialize_elim hmem with hh | hh | hh | hh
      · exact absurd (waBare_eq ▸ hh) hknh.1
      · exact absurd (waBare_eq ▸ hh) hknh.2
      · obtain ⟨k', v', hv', hv'ne, heq⟩ := hh
        have hgk' : GoodKey k' := hvals (k', v') (mem_of_getVal hv')
        rw [waBare_eq] at heq
        obtain ⟨_, hveq⟩ := keyval_inj (by decide) hgk'.2.1 heq
        exact absurd hveq.symm hv'ne
      · obtain ⟨v, hv, heq⟩ := hh
        have hd := congrArg String.data heq
        rw [strApp_data] at hd
        have hlen := congrArg List.length hd
        rw [List.length_append] at hlen
        have hvnil : v.data = [] := List.length_eq_zero.mp (by omega)
        have : v = "" := String.ext (by rw [hvnil])
        rw [← this]
        exact hv
    · intro hwa
      have hany : ¬ ((headerFor now ++
          (sortedKeys values).filterMap (emitLine values)).any
          (fun l => startsWithList "WALLET_ADDRESS=".data l.data)) = true := by
        intro hh
        obtain ⟨v', hv', hv'ne⟩ := any_startsWith_wa hsorted hh
        rw [hwa] at hv'
        exact hv'ne (Option.some.injEq .. ▸ hv').symm
      rw [serializeEnvMap, hwa]
      simp only [addressFallback]
      rw [if_neg hany]
      apply mem_ensureTrailingBlank_of
      apply List.mem_append.mpr
      refine Or.inr ?_
      rw [strApp_empty]
      exact List.mem_singleton.mpr rfl

/-- C4 counterexample: a mapping holding `WALLET_ADDRESS` as the empty string is
serialized with a bare `WALLET_ADDRESS=` line, contradicting "a field with an empty
value is dropped and never written as a bare `KEY=` line (including WALLET_ADDRESS)". -/
theorem C4_counterexample :
    ("WALLET_ADDRESS=" : String) ∈ serializeEnvMap "ts" [("WALLET_ADDRESS", "")] := by
  decide

theorem C4_witness :
    getVal "EMPTY" (parseLines (serializeEnvMap "ts" c4vals)) = emitVal c4vals "EMPTY" ∧
      getVal "WALLET_ADDRESS" (parseLines (serializeEnvMap "ts" c4vals)) =
        getVal "WALLET_ADDRESS" c4vals :=
  ⟨(C4_serialize_drops_empty "ts" c4vals (by decide)).1 "EMPTY" (by decide) (by decide),
    (C4_serialize_drops_empty "ts" c4vals (by decide)).2.2.1⟩

/-- Keys read back from the credential file are always wellformed. -/
theorem goodKeys_readEnvLocal (w : World) : ∀ p ∈ readEnvLocal w, GoodKey p.1 := by
  rw [readEnvLocal]
  cases w.envLocalFile with
  | none => intro p hp; exact absurd hp (List.not_mem_nil p)
  | some contents => exact goodKey_parseLines

theorem goodKey_pk : GoodKey "PRIVATE_KEY" := by decide

/-- The written mapping `{...envLocal, PRIVATE_KEY, WALLET_ADDRESS}` has wellformed
keys whenever `envLocal` does. -/
theorem goodKeys_written {envLocal : EnvMap} (h : ∀ p ∈ envLocal, GoodKey p.1)
    (pkv addrv : String) :
    ∀ p ∈ setKey (setKey envLocal "PRIVATE_KEY" pkv) "WALLET_ADDRESS" addrv,
      GoodKey p.1 :=
  goodKeys_setKey (goodKeys_setKey h goodKey_pk) goodKey_wa

/-- Reading back any written credential file: `PRIVATE_KEY` maps to the written
(non-empty) key. -/
theorem written_pk {envLocal : EnvMap} (hgood : ∀ p ∈ envLocal, GoodKey p.1)
    (now pkv addrv : String) (hpkv : pkv ≠ "") :
    getVal "PRIVATE_KEY" (parseLines (serializeEnvMap now
      (setKey (setKey envLocal "PRIVATE_KEY" pkv) "WALLET_ADDRESS" addrv))) = some pkv := by
  rw [getVal_parse_serialize now _ "PRIVATE_KEY"
    (goodKeys_sorted (goodKeys_written hgood pkv addrv)) goodKey_pk]
  rw [if_neg (by decide)]
  have hget : getVal "PRIVATE_KEY"
      (setKey (setKey envLocal "PRIVATE_KEY" pkv) "WALLET_ADDRESS" addrv) = some pkv := by
    rw [getVal_setKey_ne _ _ _ _ (by decide), getVal_setKey_self]
  simp only [emitVal, hget, if_neg hpkv]

/-- Reading back any written credential file: `WALLET_ADDRESS` maps to the written
address (whatever it is, thanks to the serializer's fallback). -/
theorem written_wa {envLocal : EnvMap} (hgood : ∀ p ∈ envLocal, GoodKey p.1)
    (now pkv addrv : String) :
    getVal "WALLET_ADDRESS" (parseLines (serializeEnvMap now
      (setKey (setKey envLocal "PRIVATE_KEY" pkv) "WALLET_ADDRESS" addrv))) =
      some addrv := by
  rw [getVal_parse_serialize now _ "WALLET_ADDRESS"
    (goodKeys_sorted (goodKeys_written hgood pkv addrv)) goodKey_wa]
  rw [if_pos rfl, getVal_setKey_self]

/-- Reading back any written credential file: every other wellformed key keeps its
prior non-empty value, empty values are dropped, and no key is added. -/
theorem written_frame {envLocal : EnvMap} (hgood : ∀ p ∈ envLocal, GoodKey p.1)
    (now pkv addrv : String) (k : String) (hk : GoodKey k)
    (hkpk : k ≠ "PRIVATE_KEY") (hkwa : k ≠ "WALLET_ADDRESS") :
    getVal k (parseLines (serializeEnvMap now
      (setKey (setKey envLocal "PRIVATE_KEY" pkv) "WALLET_ADDRESS" addrv))) =
      emitVal envLocal k := by
  rw [getVal_parse_serialize now _ k
    (goodKeys_sorted (goodKeys_written hgood pkv addrv)) hk]
  rw [if_neg hkwa]
  rw [emitVal, emitVal,
    getVal_setKey_ne _ _ _ _ hkwa, getVal_setKey_ne _ _ _ _ hkpk]

/-- C1: with `force=false` and a valid private key present in the resolved
environment, `ensureWallet` returns exactly that key, never reports `created` or
`rotated`, leaves the world untouched when it does not write, and any write it
performs leaves the credential file binding `PRIVATE_KEY` to that same key. -/
theorem C1_ensure_never_discards_key (isUrl : String → Bool)
    (deriveAddr : String → String) (newKey now : String) (env? : Option EnvMap)
    (w w' : World) (env : EnvMap) (r : WalletMaterialized) (v : String)
    (hres : resolveEnvironment isUrl env? w = some env)
    (hpk : getVal "PRIVATE_KEY" env = some v)
    (hv : matchesPrivateKey v = true)
    (hrun : ensureWallet isUrl deriveAddr newKey now false env? w = some (r, w')) :
    r.privateKey = v ∧ r.created = false ∧ r.rotated = false ∧
      (r.wroteEnv = false → w' = w) ∧
      (r.wroteEnv = true →
        getVal "PRIVATE_KEY" (parseLines ((w'.envLocalFile).getD [])) = some v) := by
  have hvne : v ≠ "" := ne_empty_of_matchesHex hv
  simp only [ensureWallet, hres] at hrun
  rw [if_neg (by simp)] at hrun
  rw [hpk] at hrun
  rw [show truthy (some v) = true from truthy_some_of_ne hvne] at hrun
  cases haddr : truthy (getVal "WALLET_ADDRESS" env) with
  | true =>
    rw [haddr] at hrun
    rw [if_pos (by simp)] at hrun
    rw [Option.some.injEq, Prod.mk.injEq] at hrun
    obtain ⟨hr, hw⟩ := hrun
    subst hr
    subst hw
    refine ⟨by simp, rfl, rfl, fun _ => rfl, fun hh => absurd hh (by simp)⟩
  | false =>
    rw [haddr] at hrun
    rw [if_neg (by simp), if_pos (by simp)] at hrun
    simp only [writeEnvLocal] at hrun
    rw [Option.some.injEq, Prod.mk.injEq] at hrun
    obtain ⟨hr, hw⟩ := hrun
    subst hr
    refine ⟨by simp, rfl, rfl, fun hh => absurd hh (by simp), fun _ => ?_⟩
    rw [← hw]
    simp only [chmodSyncEnvLocal, writeFileSyncEnvLocal, Option.getD_some]
    exact written_pk (goodKeys_readEnvLocal w) now v (deriveAddr ((some v).getD "")) hvne

theorem C1_witness :
    c1r.privateKey = pkLit ∧ c1r.created = false ∧ c1r.rotated = false ∧
      (c1r.wroteEnv = false → c1w' = c1w) ∧
      (c1r.wroteEnv = true →
        getVal "PRIVATE_KEY" (parseLines ((c1w'.envLocalFile).getD [])) = some pkLit) :=
  C1_ensure_never_discards_key urlT dA2 pkLit "t" none c1w c1w'
    (trimKnown (collectEnvironment c1w.procEnv
      [c1w.envLocalFile.map parseLines, c1w.envFile.map parseLines]))
    c1r pkLit (by decide) (by decide) (by decide) (by decide)

/-- C10 (amended): whenever `ensureWallet` rewrites the credential file, every
wellformed key of the prior file other than `PRIVATE_KEY` and `WALLET_ADDRESS`
reappears with its value unchanged when that value was non-empty, keys with empty
values are dropped rather than preserved, and no other key is added or changed. -/
theorem C10_rewrite_frame (isUrl : String → Bool) (deriveAddr : String → String)
    (newKey now : String) (force : Bool) (env? : Option EnvMap) (w w' : World)
    (env : EnvMap) (r : WalletMaterialized)
    (hres : resolveEnvironment isUrl env? w = some env)
    (hrun : ensureWallet isUrl deriveAddr newKey now force env? w = some (r, w'))
    (hwrote : r.wroteEnv = true) (k : String) (hk : GoodKey k)
    (hkpk : k ≠ "PRIVATE_KEY") (hkwa : k ≠ "WALLET_ADDRESS") :
    getVal k (parseLines ((w'.envLocalFile).getD [])) = emitVal (readEnvLocal w) k := by
  simp only [ensureWallet, hres] at hrun
  cases force with
  | true =>
    rw [if_pos rfl] at hrun
    simp only [rotateWallet, writeEnvLocal] at hrun
    rw [Option.some.injEq, Prod.mk.injEq] at hrun
    obtain ⟨hr, hw⟩ := hrun
    rw [← hw]
    simp only [chmodSyncEnvLocal, writeFileSyncEnvLocal, Option.getD_some]
    exact written_frame (goodKeys_readEnvLocal w) now _ _ k hk hkpk hkwa
  | false =>
    rw [if_neg (by simp)] at hrun
    cases hpk : truthy (getVal "PRIVATE_KEY" env) with
    | true =>
      cases haddr : truthy (getVal "WALLET_ADDRESS" env) with
      | true =>
        rw [hpk, haddr] at hrun
        rw [if_pos (by simp)] at hrun
        rw [Option.some.injEq, Prod.mk.injEq] at hrun
        obtain ⟨hr, hw⟩ := hrun
        rw [← hr] at hwrote
        exact absurd hwrote (by simp)
      | false =>
        rw [hpk, haddr] at hrun
        rw [if_neg (by simp), if_pos (by simp)] at hrun
        simp only [writeEnvLocal] at hrun
        rw [Option.some.injEq, Prod.mk.injEq] at hrun
        obtain ⟨hr, hw⟩ := hrun
        rw [← hw]
        simp only [chmodSyncEnvLocal, writeFileSyncEnvLocal, Option.getD_some]
        exact written_frame (goodKeys_readEnvLocal w) now _ _ k hk hkpk hkwa
    | false =>
      rw [hpk] at hrun
      rw [if_neg (by simp), if_neg (by simp)] at hrun
      simp only [provisionWallet, writeEnvLocal] at hrun
      rw [Option.some.injEq, Prod.mk.injEq] at hrun
      obtain ⟨hr, hw⟩ := hrun
      rw [← hw]
      simp only [chmodSyncEnvLocal, writeFileSyncEnvLocal, Option.getD_some]
      exact written_frame (goodKeys_readEnvLocal w) now _ _ k hk hkpk hkwa

/-- C10 counterexample: a prior credential file holding `FOO=` (an empty value) is
rewritten by the Repair path without `FOO` — a key other than the two secret fields
is modified (dropped) by the rewrite. -/
theorem C10_counterexample :
    (ensureWallet urlT dA2 pkLit "t" false none
        ⟨[], some ["FOO=", "PRIVATE_KEY=" ++ pkLit], some 384, none, 0⟩).map
      (fun p => getVal "FOO" (parseLines ((p.2.envLocalFile).getD []))) = some none ∧
      getVal "FOO" (parseLines ["FOO=", "PRIVATE_KEY=" ++ pkLit]) = some "" := by
  constructor
  · decide
  · decide

theorem C10_witness :
    getVal "BAR" (parseLines ((c10w'.envLocalFile).getD [])) =
      emitVal (readEnvLocal c10w) "BAR" :=
  C10_rewrite_frame urlT dA2 pkLit "t" false none c10w c10w'
    (trimKnown (collectEnvironment c10w.procEnv
      [c10w.envLocalFile.map parseLines, c10w.envFile.map parseLines]))
    c10r (by decide) (by decide) (by decide) "BAR" (by decide) (by decide) (by decide)

theorem sepoliaIssue_path {isUrl : String → Bool} {env : EnvMap} {i : Issue}
    (h : sepoliaIssue isUrl env = some i) : i.path = "SEPOLIA_RPC_URL" := by
  cases hg : getVal "SEPOLIA_RPC_URL" env with
  | none => simp [sepoliaIssue, hg] at h
  | some raw =>
    simp only [sepoliaIssue, hg] at h
    by_cases hu : isUrl (jsTrim raw) = true
    · rw [if_pos hu] at h
      by_cases hs : (startsWithList "http://".data (jsTrim raw).data ||
          startsWithList "https://".data (jsTrim raw).data) = true
      · rw [if_pos hs] at h
        exact absurd h (by simp)
      · rw [if_neg hs] at h
        rw [← Option.some.inj h]
    · rw [if_neg hu] at h
      rw [← Option.some.inj h]

theorem privateKeyIssue_path {env : EnvMap} {i : Issue}
    (h : privateKeyIssue env = some i) : i.path = "PRIVATE_KEY" := by
  cases hg : getVal "PRIVATE_KEY" env with
  | none => simp [privateKeyIssue, hg] at h
  | some raw =>
    simp only [privateKeyIssue, hg] at h
    by_cases hm : matchesPrivateKey (jsTrim raw) = true
    · rw [if_pos hm] at h
      exact absurd h (by simp)
    · rw [if_neg hm] at h
      rw [← Option.some.inj h]

theorem walletAddressIssue_path {env : EnvMap} {i : Issue}
    (h : walletAddressIssue env = some i) : i.path = "WALLET_ADDRESS" := by
  cases hg : getVal "WALLET_ADDRESS" env with
  | none => simp [walletAddressIssue, hg] at h
  | some raw =>
    simp only [walletAddressIssue, hg] at h
    by_cases hm : matchesWalletAddress (jsTrim raw) = true
    · rw [if_pos hm] at h
      exact absurd h (by simp)
    · rw [if_neg hm] at h
      rw [← Option.some.inj h]

theorem etherscanIssue_path {env : EnvMap} {i : Issue}
    (h : etherscanIssue env = some i) : i.path = "ETHERSCAN_API_KEY" := by
  cases hg : getVal "ETHERSCAN_API_KEY" env with
  | none => simp [etherscanIssue, hg] at h
  | some raw =>
    simp only [etherscanIssue, hg] at h
    by_cases hm : (jsTrim raw).length ≥ 1
    · rw [if_pos hm] at h
      exact absurd h (by simp)
    · rw [if_neg hm] at h
      rw [← Option.some.inj h]

theorem mem_baseIssues_elim {isUrl : String → Bool} {env : EnvMap} {i : Issue}
    (h : i ∈ baseIssues isUrl env) :
    sepoliaIssue isUrl env = some i ∨ privateKeyIssue env = some i ∨
      walletAddressIssue env = some i ∨ etherscanIssue env = some i := by
  rw [baseIssues] at h
  rcases List.mem_append.mp h with h | h
  · rcases List.mem_append.mp h with h | h
    · rcases List.mem_append.mp h with h | h
      · exact Or.inl (Option.mem_toList.mp h)
      · exact Or.inr (Or.inl (Option.mem_toList.mp h))
    · exact Or.inr (Or.inr (Or.inl (Option.mem_toList.mp h)))
  · exact Or.inr (Or.inr (Or.inr (Option.mem_toList.mp h)))

theorem mem_baseIssues_of_pk {isUrl : String → Bool} {env : EnvMap} {i : Issue}
    (h : privateKeyIssue env = some i) : i ∈ baseIssues isUrl env := by
  rw [baseIssues]
  refine List.mem_append.mpr (Or.inl (List.mem_append.mpr (Or.inl
    (List.mem_append.mpr (Or.inr ?_)))))
  exact Option.mem_toList.mpr h

theorem mem_baseIssues_of_sepolia {isUrl : String → Bool} {env : EnvMap} {i : Issue}
    (h : sepoliaIssue isUrl env = some i) : i ∈ baseIssues isUrl env := by
  rw [baseIssues]
  refine List.mem_append.mpr (Or.inl (List.mem_append.mpr (Or.inl
    (List.mem_append.mpr (Or.inl ?_)))))
  exact Option.mem_toList.mpr h

theorem mem_baseIssues_of_wa {isUrl : String → Bool} {env : EnvMap} {i : Issue}
    (h : walletAddressIssue env = some i) : i ∈ baseIssues isUrl env := by
  rw [baseIssues]
  refine List.mem_append.mpr (Or.inl (List.mem_append.mpr (Or.inr ?_)))
  exact Option.mem_toList.mpr h

theorem mem_baseIssues_of_eth {isUrl : String → Bool} {env : EnvMap} {i : Issue}
    (h : etherscanIssue env = some i) : i ∈ baseIssues isUrl env := by
  rw [baseIssues]
  refine List.mem_append.mpr (Or.inr ?_)
  exact Option.mem_toList.mpr h

theorem missingIssues_eq_filter (m : EnvMap) :
    missingIssues m =
      (requiredKeys.filter (fun k => missingKey m k)).map
        (fun k => ⟨k, requiredMessage k⟩) := by
  rw [missingIssues]
  have hgen : ∀ keys : List String,
      keys.filterMap (fun k => if missingKey m k then
        some (⟨k, requiredMessage k⟩ : Issue) else none) =
      (keys.filter (fun k => missingKey m k)).map (fun k => ⟨k, requiredMessage k⟩) := by
    intro keys
    induction keys with
    | nil => rfl
    | cons k rest ih =>
      rw [List.filterMap_cons, List.filter_cons]
      by_cases hm : missingKey m k = true
      · simp [hm, ih]
      · have hm' : missingKey m k = false := by
          cases hB : missingKey m k
          · rfl
          · exact absurd hB hm
        simp [hm', ih]
  exact hgen requiredKeys

/-- C7: a shape failure reports every offending declared field — a field
contributes an issue naming it exactly when it is present with an invalid value —
and a strict-mode failure contributes exactly one issue per missing required field,
in order, each naming the field and carrying the remediation hint. -/
theorem C7_failures_enumerate_all (isUrl : String → Bool) (env : EnvMap) :
    ((∃ i ∈ baseIssues isUrl env, i.path = "SEPOLIA_RPC_URL") ↔
      (∃ raw, getVal "SEPOLIA_RPC_URL" env = some raw ∧
        (isUrl (jsTrim raw) && (startsWithList "http://".data (jsTrim raw).data ||
          startsWithList "https://".data (jsTrim raw).data)) = false)) ∧
    ((∃ i ∈ baseIssues isUrl env, i.path = "PRIVATE_KEY") ↔
      (∃ raw, getVal "PRIVATE_KEY" env = some raw ∧
        matchesPrivateKey (jsTrim raw) = false)) ∧
    ((∃ i ∈ baseIssues isUrl env, i.path = "WALLET_ADDRESS") ↔
      (∃ raw, getVal "WALLET_ADDRESS" env = some raw ∧
        matchesWalletAddress (jsTrim raw) = false)) ∧
    ((∃ i ∈ baseIssues isUrl env, i.path = "ETHERSCAN_API_KEY") ↔
      (∃ raw, getVal "ETHERSCAN_API_KEY" env = some raw ∧
        ((jsTrim raw).length ≥ 1) = False)) ∧
    (baseIssues isUrl env = [] →
      strictIssues isUrl env =
        (requiredKeys.filter (fun k => missingKey (trimKnown env) k)).map
          (fun k => ⟨k, requiredMessage k⟩)) := by
  refine ⟨?_, ?_, ?_, ?_, ?_⟩
  · constructor
    · rintro ⟨i, hmem, hpath⟩
      rcases mem_baseIssues_elim hmem with hi | hi | hi | hi
      · cases hg : getVal "SEPOLIA_RPC_URL" env with
        | none => simp [sepoliaIssue, hg] at hi
        | some raw =>
          refine ⟨raw, rfl, ?_⟩
          simp only [sepoliaIssue, hg] at hi
          by_cases hu : isUrl (jsTrim raw) = true
          · rw [if_pos hu] at hi
            by_cases hs : (startsWithList "http://".data (jsTrim raw).data ||
                startsWithList "https://".data (jsTrim raw).data) = true
            · rw [if_pos hs] at hi
              exact absurd hi (by simp)
            · rw [hu, Bool.true_and]
              cases hB : (startsWithList "http://".data (jsTrim raw).data ||
                  startsWithList "https://".data (jsTrim raw).data)
              · rfl
              · exact absurd hB hs
          · have : isUrl (jsTrim raw) = false := by
              cases hB : isUrl (jsTrim raw)
              · rfl
              · exact absurd hB hu
            rw [this, Bool.false_and]
      · exact absurd (privateKeyIssue_path hi ▸ hpath) (by decide)
      · exact absurd (walletAddressIssue_path hi ▸ hpath) (by decide)
      · exact absurd (etherscanIssue_path hi ▸ hpath) (by decide)
    · rintro ⟨raw, hg, hbad⟩
      have hi : sepoliaIssue isUrl env =
          some (if isUrl (jsTrim raw) then
            ⟨"SEPOLIA_RPC_URL",
              "SEPOLIA_RPC_URL must begin with an http:// or https:// scheme."⟩
          else ⟨"SEPOLIA_RPC_URL", "SEPOLIA_RPC_URL must be a valid URL."⟩) := by
        simp only [sepoliaIssue, hg]
        by_cases hu : isUrl (jsTrim raw) = true
        · rw [if_pos hu, if_pos hu]
          rw [hu, Bool.true_and] at hbad
          rw [if_neg (by rw [hbad]; simp)]
        · have hu' : isUrl (jsTrim raw) = false := by
            cases hB : isUrl (jsTrim raw)
            · rfl
            · exact absurd hB hu
          rw [if_neg hu, if_neg (by rw [hu']; simp)]
      refine ⟨_, mem_baseIssues_of_sepolia hi, ?_⟩
      by_cases hu : isUrl (jsTrim raw) = true
      · rw [if_pos hu]
      · rw [if_neg hu]
  · constructor
    · rintro ⟨i, hmem, hpath⟩
      rcases mem_baseIssues_elim hmem with hi | hi | hi | hi
      · exact absurd (sepoliaIssue_path hi ▸ hpath) (by decide)
      · cases hg : getVal "PRIVATE_KEY" env with
        | none => simp [privateKeyIssue, hg] at hi
        | some raw =>
          refine ⟨raw, rfl, ?_⟩
          simp only [privateKeyIssue, hg] at hi
          by_cases hm : matchesPrivateKey (jsTrim raw) = true
          · rw [if_pos hm] at hi
            exact absurd hi (by simp)
          · cases hB : matchesPrivateKey (jsTrim raw)
            · rfl
            · exact absurd hB hm
      · exact absurd (walletAddressIssue_path hi ▸ hpath) (by decide)
      · exact absurd (etherscanIssue_path hi ▸ hpath) (by decide)
    · rintro ⟨raw, hg, hbad⟩
      have hi : privateKeyIssue env = some ⟨"PRIVATE_KEY",
          "PRIVATE_KEY must be a 32-byte hex string prefixed with 0x (64 hex chars)."⟩ := by
        simp only [privateKeyIssue, hg]
        rw [if_neg (by rw [hbad]; simp)]
      exact ⟨_, mem_baseIssues_of_pk hi, rfl⟩
  · constructor
    · rintro ⟨i, hmem, hpath⟩
      rcases mem_baseIssues_elim hmem with hi | hi | hi | hi
      · exact absurd (sepoliaIssue_path hi ▸ hpath) (by decide)
      · exact absurd (privateKeyIssue_path hi ▸ hpath) (by decide)
      · cases hg : getVal "WALLET_ADDRESS" env with
        | none => simp [walletAddressIssue, hg] at hi
        | some raw =>
          refine ⟨raw, rfl, ?_⟩
          simp only [walletAddressIssue, hg] at hi
          by_cases hm : matchesWalletAddress (jsTrim raw) = true
          · rw [if_pos hm] at hi
            exact absurd hi (by simp)
          · cases hB : matchesWalletAddress (jsTrim raw)
            · rfl
            · exact absurd hB hm
      · exact absurd (etherscanIssue_path hi ▸ hpath) (by decide)
    · rintro ⟨raw, hg, hbad⟩
      have hi : walletAddressIssue env = some ⟨"WALLET_ADDRESS",
          "WALLET_ADDRESS must be a 20-byte hex string prefixed with 0x."⟩ := by
        simp only [walletAddressIssue, hg]
        rw [if_neg (by rw [hbad]; simp)]
      exact ⟨_, mem_baseIssues_of_wa hi, rfl⟩
  · constructor
    · rintro ⟨i, hmem, hpath⟩
      rcases mem_baseIssues_elim hmem with hi | hi | hi | hi
      · exact absurd (sepoliaIssue_path hi ▸ hpath) (by decide)
      · exact absurd (privateKeyIssue_path hi ▸ hpath) (by decide)
      · exact absurd (walletAddressIssue_path hi ▸ hpath) (by decide)
      · cases hg : getVal "ETHERSCAN_API_KEY" env with
        | none => simp [etherscanIssue, hg] at hi
        | some raw =>
          refine ⟨raw, rfl, ?_⟩
          simp only [etherscanIssue, hg] at hi
          by_cases hm : (jsTrim raw).length ≥ 1
          · rw [if_pos hm] at hi
            exact absurd hi (by simp)
          · simp [hm]
    · rintro ⟨raw, hg, hbad⟩
      have hbad' : ¬ (jsTrim raw).length ≥ 1 := by
        simp at hbad
        omega
      have hi : etherscanIssue env = some ⟨"ETHERSCAN_API_KEY",
          "ETHERSCAN_API_KEY cannot be empty when provided."⟩ := by
        simp only [etherscanIssue, hg]
        rw [if_neg hbad']
      exact ⟨_, mem_baseIssues_of_eth hi, rfl⟩
  · intro hb
    rw [strictIssues, if_pos hb]
    exact missingIssues_eq_filter (trimKnown env)

theorem C7_witness :
    (∃ i ∈ baseIssues urlT envBadPk, i.path = "PRIVATE_KEY") ∧
      strictIssues urlT ([] : EnvMap) =
        (requiredKeys.filter (fun k => missingKey (trimKnown ([] : EnvMap)) k)).map
          (fun k => ⟨k, requiredMessage k⟩) :=
  ⟨(C7_failures_enumerate_all urlT envBadPk).2.1.mpr ⟨"0xzz", by decide, by decide⟩,
    (C7_failures_enumerate_all urlT ([] : EnvMap)).2.2.2.2 (by decide)⟩

theorem truthy_elim {o : Option String} (h : truthy o = true) :
    ∃ v, o = some v ∧ v ≠ "" := by
  cases o with
  | none => exact absurd h (by simp [truthy])
  | some v =>
    refine ⟨v, rfl, ?_⟩
    simp [truthy] at h
    exact h

theorem orVal_none_elim {a b : Option String} (h : orVal a b = none) :
    a = none ∧ b = none := by
  cases a with
  | none => exact ⟨rfl, h⟩
  | some v => exact absurd h (by simp [orVal])

theorem env_known_val (cfg : EnvMap) (k : String) (hk : k ∈ knownKeys) :
    getVal k (trimKnown cfg) = (getVal k cfg).map jsTrim := by
  rw [getVal_trimKnown, if_pos hk]

theorem resolvedConfig_val (w : World) (hnd : (w.procEnv.map Prod.fst).Nodup)
    (k : String) :
    getVal k (resolvedConfig w) =
      orVal (procVal w.procEnv k)
        (orVal (fileVal (w.envLocalFile.map parseLines) k)
          (fileVal (w.envFile.map parseLines) k)) := by
  rw [resolvedConfig]
  exact getVal_collectEnvironment _ hnd _ _ k

/-- A base-validated configuration whose parsed `WALLET_ADDRESS` is falsy cannot
contain the key at all: a present value would have to match the address regex,
which an empty trimmed value cannot. -/
theorem wa_none_of_falsy {isUrl : String → Bool} {cfg : EnvMap}
    (hbase : baseIssues isUrl cfg = [])
    (hfalsy : truthy (getVal "WALLET_ADDRESS" (trimKnown cfg)) = false) :
    getVal "WALLET_ADDRESS" cfg = none := by
  cases hg : getVal "WALLET_ADDRESS" cfg with
  | none => rfl
  | some raw =>
    have h1 : getVal "WALLET_ADDRESS" (trimKnown cfg) = some (jsTrim raw) := by
      rw [env_known_val cfg _ (by decide), hg]
      rfl
    rw [h1] at hfalsy
    have hempty : jsTrim raw = "" := by
      by_contra hne
      rw [truthy_some_of_ne hne] at hfalsy
      exact absurd hfalsy (by simp)
    have hval := walletAddress_valid_of_none (baseIssues_nil_elim hbase).2.2.1 hg
    rw [hempty] at hval
    exact absurd hval (by decide)

/-- Same for a falsy parsed `PRIVATE_KEY`. -/
theorem pk_none_of_falsy {isUrl : String → Bool} {cfg : EnvMap}
    (hbase : baseIssues isUrl cfg = [])
    (hfalsy : truthy (getVal "PRIVATE_KEY" (trimKnown cfg)) = false) :
    getVal "PRIVATE_KEY" cfg = none := by
  cases hg : getVal "PRIVATE_KEY" cfg with
  | none => rfl
  | some raw =>
    have h1 : getVal "PRIVATE_KEY" (trimKnown cfg) = some (jsTrim raw) := by
      rw [env_known_val cfg _ (by decide), hg]
      rfl
    rw [h1] at hfalsy
    have hempty : jsTrim raw = "" := by
      by_contra hne
      rw [truthy_some_of_ne hne] at hfalsy
      exact absurd hfalsy (by simp)
    have hval := privateKey_valid_of_none (baseIssues_nil_elim hbase).2.1 hg
    rw [hempty] at hval
    exact absurd hval (by decide)

/-- C8: with a valid private key resolved and no wallet address, `ensureWallet`
(force=false) derives the address from the key, echoes the key and persists both,
reports `wroteEnv=true, created=false, rotated=false`, and a subsequent resolution
of the merged configuration for the same directory yields the derived address. -/
theorem C8_repair_derives_and_persists (isUrl : String → Bool)
    (deriveAddr : String → String) (newKey now : String) (w w' : World)
    (env : EnvMap) (r : WalletMaterialized) (v : String)
    (hnd : (w.procEnv.map Prod.fst).Nodup)
    (hD : ∀ s, matchesWalletAddress (deriveAddr s) = true)
    (hload : loadEnvironment isUrl w = some env)
    (hpk : getVal "PRIVATE_KEY" env = some v)
    (hv : matchesPrivateKey v = true)
    (haddr : truthy (getVal "WALLET_ADDRESS" env) = false)
    (hrun : ensureWallet isUrl deriveAddr newKey now false none w = some (r, w')) :
    r.address = deriveAddr v ∧ r.privateKey = v ∧ r.created = false ∧
      r.rotated = false ∧ r.wroteEnv = true ∧
      getVal "PRIVATE_KEY" (parseLines ((w'.envLocalFile).getD [])) = some v ∧
      getVal "WALLET_ADDRESS" (parseLines ((w'.envLocalFile).getD [])) =
        some (deriveAddr v) ∧
      getVal "WALLET_ADDRESS" (resolvedConfig w') = some (deriveAddr v) := by
  have hload' := hload
  rw [loadEnvironment] at hload'
  obtain ⟨hbase, henv⟩ := parseBase_elim hload'
  have hvne : v ≠ "" := ne_empty_of_matchesHex hv
  have hres : resolveEnvironment isUrl none w = some env := hload
  simp only [ensureWallet, hres] at hrun
  rw [if_neg (by simp)] at hrun
  rw [hpk, show truthy (some v) = true from truthy_some_of_ne hvne, haddr] at hrun
  rw [if_neg (by simp), if_pos (by simp)] at hrun
  simp only [writeEnvLocal, Option.getD_some] at hrun
  rw [Option.some.injEq, Prod.mk.injEq] at hrun
  obtain ⟨hr, hw⟩ := hrun
  subst hr
  have hwaNone : getVal "WALLET_ADDRESS" (resolvedConfig w) = none := by
    apply wa_none_of_falsy hbase
    rw [← henv]
    exact haddr
  have hprocNone : procVal w.procEnv "WALLET_ADDRESS" = none := by
    have hchar := resolvedConfig_val w hnd "WALLET_ADDRESS"
    rw [hwaNone] at hchar
    exact (orVal_none_elim hchar.symm).1
  refine ⟨rfl, rfl, rfl, rfl, rfl, ?_, ?_, ?_⟩
  · rw [← hw]
    simp only [chmodSyncEnvLocal, writeFileSyncEnvLocal, Option.getD_some]
    exact written_pk (goodKeys_readEnvLocal w) now v (deriveAddr v) hvne
  · rw [← hw]
    simp only [chmodSyncEnvLocal, writeFileSyncEnvLocal, Option.getD_some]
    exact written_wa (goodKeys_readEnvLocal w) now v (deriveAddr v)
  · rw [← hw]
    simp only [chmodSyncEnvLocal, writeFileSyncEnvLocal]
    rw [resolvedConfig]
    rw [getVal_collectEnvironment _ hnd, hprocNone]
    simp only [Option.map_some', fileVal, orVal]
    rw [written_wa (goodKeys_readEnvLocal w) now v (deriveAddr v)]

theorem ensureWallet_none {isUrl : String → Bool} {dAddr : String → String}
    {nk now : String} {W : World} (h : loadEnvironment isUrl W = none) :
    ensureWallet isUrl dAddr nk now false none W = none := by
  have hres : resolveEnvironment isUrl none W = none := h
  simp only [ensureWallet, hres]

/-- The merged configuration seen after a credential-file write: ambient variables,
then the written file, then `.env`. -/
theorem resolvedConfig_after_write (w : World) (hnd : (w.procEnv.map Prod.fst).Nodup)
    (C : List String) (mode mode2 : Nat) (k : String) :
    getVal k (resolvedConfig (chmodSyncEnvLocal mode2 (writeFileSyncEnvLocal C mode w))) =
      orVal (procVal w.procEnv k)
        (orVal (getVal k (parseLines C)) (fileVal (w.envFile.map parseLines) k)) := by
  simp only [chmodSyncEnvLocal, writeFileSyncEnvLocal, resolvedConfig]
  rw [getVal_collectEnvironment _ hnd]
  simp only [Option.map_some', fileVal]

/-- A second `ensureWallet` call that resolves both secrets truthy takes the Reuse
path and returns them unchanged. -/
theorem ensure_reuse {isUrl : String → Bool} {dAddr : String → String}
    {nk now : String} {W : World} {env₂ : EnvMap} {r₂ : WalletMaterialized}
    {w₂ : World} {V A : String}
    (hload : loadEnvironment isUrl W = some env₂)
    (hpk : getVal "PRIVATE_KEY" env₂ = some V) (hVne : V ≠ "")
    (hwa : getVal "WALLET_ADDRESS" env₂ = some A) (hAne : A ≠ "")
    (h2 : ensureWallet isUrl dAddr nk now false none W = some (r₂, w₂)) :
    r₂ = ⟨A, V, false, false, false⟩ := by
  have hres : resolveEnvironment isUrl none W = some env₂ := hload
  simp only [ensureWallet, hres] at h2
  rw [if_neg (by simp)] at h2
  rw [hpk, hwa, truthy_some_of_ne hVne, truthy_some_of_ne hAne] at h2
  rw [if_pos (by simp)] at h2
  simp only [Option.getD_some] at h2
  rw [Option.some.injEq, Prod.mk.injEq] at h2
  exact h2.1.symm

/-- C9 (amended): calling `ensureWallet(force=false)` twice returns the same address
and private key, the second call reporting `created=false, rotated=false` — provided
the ambient process variables do not themselves provide a (non-empty)
`WALLET_ADDRESS`, or some private key resolves from any source (in which case both
calls reuse). Only when an ambient address is set while no private key resolves does
the guarantee fail: the provisioned address is shadowed by the ambient one on the
second call. -/
theorem C9_idempotent_amended (isUrl : String → Bool) (dAddr : String → String)
    (nk now nk₂ now₂ : String) (w w₁ w₂ : World) (r₁ r₂ : WalletMaterialized)
    (hnd : (w.procEnv.map Prod.fst).Nodup)
    (hD : ∀ s, matchesWalletAddress (dAddr s) = true)
    (hNK : matchesPrivateKey nk = true)
    (hok : procVal w.procEnv "WALLET_ADDRESS" = none ∨
      ∃ raw, getVal "PRIVATE_KEY" (resolvedConfig w) = some raw)
    (h1 : ensureWallet isUrl dAddr nk now false none w = some (r₁, w₁))
    (h2 : ensureWallet isUrl dAddr nk₂ now₂ false none w₁ = some (r₂, w₂)) :
    r₂.address = r₁.address ∧ r₂.privateKey = r₁.privateKey ∧
      r₂.created = false ∧ r₂.rotated = false := by
  cases hload₁ : loadEnvironment isUrl w with
  | none =>
    rw [ensureWallet_none hload₁] at h1
    exact absurd h1 (by simp)
  | some env₁ =>
    have hres₁ : resolveEnvironment isUrl none w = some env₁ := hload₁
    obtain ⟨hbase₁, henv₁⟩ := parseBase_elim
      (show parseBaseEnvironment isUrl (resolvedConfig w) = some env₁ from hload₁)
    simp only [ensureWallet, hres₁] at h1
    rw [if_neg (by simp)] at h1
    cases hpk₁ : truthy (getVal "PRIVATE_KEY" env₁) with
    | false =>
      rw [hpk₁] at h1
      rw [if_neg (by simp), if_neg (by simp)] at h1
      simp only [provisionWallet, writeEnvLocal] at h1
      rw [Option.some.injEq, Prod.mk.injEq] at h1
      obtain ⟨hr₁, hw₁⟩ := h1
      have hwaProc : procVal w.procEnv "WALLET_ADDRESS" = none := by
        rcases hok with hok | ⟨raw, hraw⟩
        · exact hok
        · exfalso
          have henvPK : getVal "PRIVATE_KEY" env₁ = some (jsTrim raw) := by
            rw [henv₁, env_known_val _ _ (by decide), hraw]
            rfl
          have hvalid := privateKey_valid_of_none (baseIssues_nil_elim hbase₁).2.1 hraw
          have htr : truthy (getVal "PRIVATE_KEY" env₁) = true := by
            rw [henvPK]
            exact truthy_some_of_ne (ne_empty_of_matchesHex hvalid)
          rw [htr] at hpk₁
          exact absurd hpk₁ (by simp)
      have hprocPK : procVal w.procEnv "PRIVATE_KEY" = none := by
        cases hproc : procVal w.procEnv "PRIVATE_KEY" with
        | none => rfl
        | some a =>
          exfalso
          have hcfg1 : getVal "PRIVATE_KEY" (resolvedConfig w) = some a := by
            rw [resolvedConfig_val w hnd, hproc]
            rfl
          have henvPK : getVal "PRIVATE_KEY" env₁ = some (jsTrim a) := by
            rw [henv₁, env_known_val _ _ (by decide), hcfg1]
            rfl
          have hvalid := privateKey_valid_of_none (baseIssues_nil_elim hbase₁).2.1 hcfg1
          have htr : truthy (getVal "PRIVATE_KEY" env₁) = true := by
            rw [henvPK]
            exact truthy_some_of_ne (ne_empty_of_matchesHex hvalid)
          rw [htr] at hpk₁
          exact absurd hpk₁ (by simp)
      have hnkne : nk ≠ "" := ne_empty_of_matchesHex hNK
      cases hload₂ : loadEnvironment isUrl w₁ with
      | none =>
        rw [ensureWallet_none hload₂] at h2
        exact absurd h2 (by simp)
      | some env₂ =>
        obtain ⟨hbase₂, henv₂⟩ := parseBase_elim
          (show parseBaseEnvironment isUrl (resolvedConfig w₁) = some env₂ from hload₂)
        have hcfg2PK : getVal "PRIVATE_KEY" (resolvedConfig w₁) = some nk := by
          rw [← hw₁, resolvedConfig_after_write w hnd, hprocPK,
            written_pk (goodKeys_readEnvLocal w) now nk (dAddr nk) hnkne]
          rfl
        have hcfg2WA : getVal "WALLET_ADDRESS" (resolvedConfig w₁) = some (dAddr nk) := by
          rw [← hw₁, resolvedConfig_after_write w hnd, hwaProc,
            written_wa (goodKeys_readEnvLocal w) now nk (dAddr nk)]
          rfl
        have henv₂PK : getVal "PRIVATE_KEY" env₂ = some nk := by
          rw [henv₂, env_known_val _ _ (by decide), hcfg2PK]
          simp only [Option.map_some']
          rw [jsTrim_eq_of_privateKey hNK]
        have henv₂WA : getVal "WALLET_ADDRESS" env₂ = some (dAddr nk) := by
          rw [henv₂, env_known_val _ _ (by decide), hcfg2WA]
          simp only [Option.map_some']
          rw [jsTrim_eq_of_walletAddress (hD nk)]
        have hr₂ := ensure_reuse hload₂ henv₂PK hnkne henv₂WA
          (ne_empty_of_matchesHex (hD nk)) h2
        rw [hr₂, ← hr₁]
        exact ⟨rfl, rfl, rfl, rfl⟩
    | true =>
      obtain ⟨v, hpkv, hvne⟩ := truthy_elim hpk₁
      have hvvalid : matchesPrivateKey v = true := by
        have hpkv' := hpkv
        rw [henv₁, env_known_val _ _ (by decide)] at hpkv'
        cases hraw : getVal "PRIVATE_KEY" (resolvedConfig w) with
        | none =>
          rw [hraw] at hpkv'
          exact absurd hpkv' (by simp)
        | some raw =>
          rw [hraw] at hpkv'
          simp only [Option.map_some', Option.some.injEq] at hpkv'
          rw [← hpkv']
          exact privateKey_valid_of_none (baseIssues_nil_elim hbase₁).2.1 hraw
      rw [hpkv, truthy_some_of_ne hvne] at h1
      cases haddr₁ : truthy (getVal "WALLET_ADDRESS" env₁) with
      | true =>
        obtain ⟨A, hwaA, hAne⟩ := truthy_elim haddr₁
        rw [hwaA, truthy_some_of_ne hAne, if_pos (by simp)] at h1
        simp only [Option.getD_some] at h1
        rw [Option.some.injEq, Prod.mk.injEq] at h1
        obtain ⟨hr₁, hw₁⟩ := h1
        rw [← hw₁] at h2
        have hr₂ := ensure_reuse hload₁ hpkv hvne hwaA hAne h2
        rw [hr₂, ← hr₁]
        exact ⟨rfl, rfl, rfl, rfl⟩
      | false =>
        rw [haddr₁, if_neg (by simp), if_pos (by simp)] at h1
        simp only [writeEnvLocal, Option.getD_some] at h1
        rw [Option.some.injEq, Prod.mk.injEq] at h1
        obtain ⟨hr₁, hw₁⟩ := h1
        have hwaNone₁ : getVal "WALLET_ADDRESS" (resolvedConfig w) = none := by
          apply wa_none_of_falsy hbase₁
          rw [← henv₁]
          exact haddr₁
        have hprocWA : procVal w.procEnv "WALLET_ADDRESS" = none := by
          have hchar := resolvedConfig_val w hnd "WALLET_ADDRESS"
          rw [hwaNone₁] at hchar
          exact (orVal_none_elim hchar.symm).1
        cases hload₂ : loadEnvironment isUrl w₁ with
        | none =>
          rw [ensureWallet_none hload₂] at h2
          exact absurd h2 (by simp)
        | some env₂ =>
          obtain ⟨hbase₂, henv₂⟩ := parseBase_elim
            (show parseBaseEnvironment isUrl (resolvedConfig w₁) = some env₂ from hload₂)
          have henv₂PK : getVal "PRIVATE_KEY" env₂ = some v := by
            cases hproc : procVal w.procEnv "PRIVATE_KEY" with
            | some a =>
              have hcfg1 : getVal "PRIVATE_KEY" (resolvedConfig w) = some a := by
                rw [resolvedConfig_val w hnd, hproc]
                rfl
              have henvPK : getVal "PRIVATE_KEY" env₁ = some (jsTrim a) := by
                rw [henv₁, env_known_val _ _ (by decide), hcfg1]
                rfl
              have hja : jsTrim a = v := Option.some.inj (henvPK.symm.trans hpkv)
              have hcfg2 : getVal "PRIVATE_KEY" (resolvedConfig w₁) = some a := by
                rw [← hw₁, resolvedConfig_after_write w hnd, hproc]
                rfl
              rw [henv₂, env_known_val _ _ (by decide), hcfg2]
              simp only [Option.map_some']
              rw [hja]
            | none =>
              have hcfg2 : getVal "PRIVATE_KEY" (resolvedConfig w₁) = some v := by
                rw [← hw₁, resolvedConfig_after_write w hnd, hproc,
                  written_pk (goodKeys_readEnvLocal w) now v (dAddr v) hvne]
                rfl
              rw [henv₂, env_known_val _ _ (by decide), hcfg2]
              simp only [Option.map_some']
              rw [jsTrim_eq_of_privateKey hvvalid]
          have henv₂WA : getVal "WALLET_ADDRESS" env₂ = some (dAddr v) := by
            have hcfg2 : getVal "WALLET_ADDRESS" (resolvedConfig w₁) = some (dAddr v) := by
              rw [← hw₁, resolvedConfig_after_write w hnd, hprocWA,
                written_wa (goodKeys_readEnvLocal w) now v (dAddr v)]
              rfl
            rw [henv₂, env_known_val _ _ (by decide), hcfg2]
            simp only [Option.map_some']
            rw [jsTrim_eq_of_walletAddress (hD v)]
          have hr₂ := ensure_reuse hload₂ henv₂PK hvne henv₂WA
            (ne_empty_of_matchesHex (hD v)) h2
          rw [hr₂, ← hr₁]
          exact ⟨rfl, rfl, rfl, rfl⟩

theorem C8_witness :
    c1r.address = dA2 pkLit ∧ c1r.privateKey = pkLit ∧ c1r.created = false ∧
      c1r.rotated = false ∧ c1r.wroteEnv = true ∧
      getVal "PRIVATE_KEY" (parseLines ((c1w'.envLocalFile).getD [])) = some pkLit ∧
      getVal "WALLET_ADDRESS" (parseLines ((c1w'.envLocalFile).getD [])) =
        some (dA2 pkLit) ∧
      getVal "WALLET_ADDRESS" (resolvedConfig c1w') = some (dA2 pkLit) :=
  C8_repair_derives_and_persists urlT dA2 pkLit "t" c1w c1w'
    (trimKnown (resolvedConfig c1w)) c1r pkLit (by decide) (fun s => show matchesWalletAddress adLit2 = true by decide)
    (by decide) (by decide) (by decide) (by decide) (by decide)

/-- C9 counterexample: with an ambient `WALLET_ADDRESS` and no private key anywhere,
the first call provisions a wallet and returns the freshly derived address, while the
second call resolves the ambient address and reuses it — the two calls return
different addresses. -/
theorem C9_counterexample :
    ((ensureWallet urlT dA2 pkLit "t" false none
        ⟨[("WALLET_ADDRESS", adLit)], none, none, none, 0⟩).bind
      (fun p => (ensureWallet urlT dA2 pkLit "t2" false none p.2).map
        (fun q => (p.1.address, q.1.address)))) = some (adLit2, adLit) ∧
      adLit2 ≠ adLit :=
  ⟨by decide, by decide⟩

theorem C9_witness :
    c9r2.address = c9r1.address ∧ c9r2.privateKey = c9r1.privateKey ∧
      c9r2.created = false ∧ c9r2.rotated = false :=
  C9_idempotent_amended urlT dA2 pkLit "t" pkLit "t2" w0 c9w1 c9w2 c9r1 c9r2
    (by decide) (fun s => show matchesWalletAddress adLit2 = true by decide) (by decide)
    (Or.inl (by decide)) (by decide) (by decide)

end TestBot
